import Mathlib

/-!
Verification development for the SN106 validator (scoring and weight-submission
pipeline).  The definitions below are shallow embeddings of the TypeScript
sources:

* src/utils/setWeights.ts            (u16 weight scaling with burn share)
* src/validator/index.ts             (EMA store update and run policy)
* src/utils/poolWeights.ts and its six-parameter revision
                                     (reserved-share pool weighting)
* src/validator/chains/solana/dexes/raydium/ticks.ts
                                     (position scoring and pool-wise emissions)

JavaScript Records are modelled as association lists (first-match lookup,
insertion-ordered keys).  Plain JS number arithmetic on values that are
provably finite is modelled exactly over the rationals (setWeights, EMA, pool
weights) or over the reals (scoring, whose Math.pow with exponent 1.2 is a
real-valued operation); IEEE special values (NaN and the infinities), which the
scoring pipeline can actually produce, are modelled by the JSR type with the
ECMAScript rules for addition, multiplication, division and Math.pow.
Rounding of double arithmetic is not modelled; the specification's stated
tolerances absorb it.  Array.prototype.sort (stable in JS engines) is modelled
by a stable insertion sort.
-/

/-- First-match lookup in an association list, the model of reading a property
of a JS object. -/
def alookup {α β : Type} [DecidableEq α] : List (α × β) → α → Option β
  | [], _ => none
  | (k, v) :: t, a => if k = a then some v else alookup t a

/-- Lookup with a default, the model of the JS patterns `m[k] ?? d` and
(for number-valued maps whose stored values are never falsy) `m[k] || d`. -/
def agetD {α β : Type} [DecidableEq α] (m : List (α × β)) (a : α) (d : β) : β :=
  (alookup m a).getD d

/-- Sum of the values of a rational-valued association list
(`Object.values(m)` followed by a fold). -/
def sumValues {α : Type} (m : List (α × ℚ)) : ℚ :=
  (m.map Prod.snd).sum

/-- Accumulate a key in insertion order, skipping keys already present; the
model of JS object-key insertion and of adding to a Set. -/
def insKey {α : Type} [DecidableEq α] (ks : List α) (k : α) : List α :=
  if k ∈ ks then ks else ks ++ [k]

/-- Stable insertion into a list sorted by the relation `le`
(`le x y` means `x` may stay in front of `y`). -/
def stableInsert {α : Type} (le : α → α → Prop) [DecidableRel le] (x : α) :
    List α → List α
  | [] => [x]
  | y :: t => if le x y then x :: y :: t else y :: stableInsert le x t

/-- Stable sort by the relation `le`; the model of `Array.prototype.sort`
with a comparator (stable in the JS engines this repository targets). -/
def stableSort {α : Type} (le : α → α → Prop) [DecidableRel le] :
    List α → List α
  | [] => []
  | x :: t => stableInsert le x (stableSort le t)

/-- A JS number that the program may feed into the weight pipeline: NaN, an
infinity, or a finite value (modelled exactly as a rational). -/
inductive JSNum : Type
  | nan : JSNum
  | posInf : JSNum
  | negInf : JSNum
  | num : ℚ → JSNum
deriving DecidableEq

/-- The model of the sanitisation `isFinite(w) && w > 0 ? w : 0` applied to
each raw weight in setWeightsOnSubtensor. -/
def sanitizeWeight : JSNum → ℚ
  | .num q => if 0 < q then q else 0
  | _ => 0

/-- The model of the re-sanitisation `isFinite(x) && x > 0 ? x : 0` applied to
the already-finite float weights when summing miner weights (the isFinite
conjunct always holds for a rational). -/
def sanitizeQ (q : ℚ) : ℚ :=
  if 0 < q then q else 0

/-- Math.round on a finite value: round half away from zero is JS
`Math.round(x) = floor(x + 0.5)` (half toward positive infinity). -/
def jsRound (q : ℚ) : ℤ :=
  ⌊q + 1 / 2⌋

/-- Add one unit at position `i` (`arr[i] += 1`). -/
def incAt (l : List ℤ) (i : ℕ) : List ℤ :=
  l.set i (l.getD i 0 + 1)

/-- Remove one unit at position `i` (`arr[i] -= 1`). -/
def decAt (l : List ℤ) (i : ℕ) : List ℤ :=
  l.set i (l.getD i 0 - 1)

/-- The outcome of building the scaled u16 submission vector:
parallel uid and weight arrays plus the all-zero policy flag
(`allWeightsZero` in the source). -/
structure ScaledOut : Type where
  uids : List ℕ
  scaled : List ℤ
  allZero : Bool
deriving DecidableEq

namespace SetWeights

/-- Distribution of the remainder units of the largest-remainder step:
`for (k = 0; k < minerRemainder && k < order.length; k++) minerFloors[order[k]] += 1`
is a fold of unit increments over the first `minerRemainder` entries of
`order`. -/
def distributeOnes (floors : List ℤ) (idxs : List ℕ) : List ℤ :=
  idxs.foldl incAt floors

/-- The round-robin loop adding `delta` missing units to miners in descending
target order (`while (delta > 0 ...) { scaled[minerIndices[order2[k % minersCount]]] += 1; ... }`). -/
def addLoop (minerIdx : List ℕ) (order2 : List ℕ) (minersCount : ℕ) :
    List ℤ → ℕ → ℕ → List ℤ
  | scaled, 0, _ => scaled
  | scaled, d + 1, k =>
      addLoop minerIdx order2 minersCount
        (incAt scaled (minerIdx.getD (order2.getD (k % minersCount) 0) 0)) d (k + 1)

/-- The loop removing `remaining` excess units from the miners with the
largest scaled weight, with the source's bail-out once the counter passes
`minersCount * 2`.  The fuel argument only bounds the recursion; called with
fuel above `minersCount * 2 + 1` it performs exactly the source loop's
iterations. -/
def subLoop (minerIdx : List ℕ) (order3 : List ℕ) (minersCount : ℕ) :
    List ℤ → ℤ → ℕ → ℕ → List ℤ × ℤ
  | scaled, remaining, _, 0 => (scaled, remaining)
  | scaled, remaining, t, fuel + 1 =>
      if remaining ≤ 0 then (scaled, remaining)
      else
        let j := order3.getD (t % minersCount) 0
        let uidIdx := minerIdx.getD j 0
        let scaled' := if 0 < scaled.getD uidIdx 0 then decAt scaled uidIdx else scaled
        let remaining' := if 0 < scaled.getD uidIdx 0 then remaining - 1 else remaining
        if minersCount * 2 < t + 1 ∧ 0 < remaining' then (scaled', remaining')
        else subLoop minerIdx order3 minersCount scaled' remaining' (t + 1) fuel

/-- The check `all non-zero weights equal within 1e-10` of
setWeightsOnSubtensor: when it fires, every float weight is replaced by 0. -/
def equalCheck (n : ℕ) (fw1 : List ℚ) : List ℚ :=
  let nz := fw1.filter (fun w => 0 < w)
  if nz ≠ [] ∧ ∀ w ∈ nz, |w - nz.headD 0| < 1 / 10 ^ 10 then
    List.replicate n (0 : ℚ)
  else fw1

/-- The check `all float weights zero/invalid` of setWeightsOnSubtensor:
a non-positive sum zeroes every weight (no uniform fallback). -/
def zeroSumCheck (n : ℕ) (fw2 : List ℚ) : List ℚ :=
  if fw2.sum ≤ 0 then List.replicate n (0 : ℚ) else fw2

/-- `burnIdx = uids.indexOf(burnUid)` after the burn UID is ensured. -/
def burnIdxOf (uids2 : List ℕ) : ℕ :=
  uids2.indexOf 0

/-- `minerIndices`: every array position except the burn position. -/
def minerIdxOf (uids2 : List ℕ) : List ℕ :=
  (List.range uids2.length).filter (fun i => i ≠ burnIdxOf uids2)

/-- `minerWeightsSum`: the sanitised float weights summed over the miner
positions. -/
def minerSumOf (uids2 : List ℕ) (fw4 : List ℚ) : ℚ :=
  ((minerIdxOf uids2).map (fun i => sanitizeQ (fw4.getD i 0))).sum

/-- `allWeightsZero = floatWeights.every(w => w === 0)`. -/
def allZeroOf (fw4 : List ℚ) : Bool :=
  decide (∀ w ∈ fw4, w = 0)

/-- `desiredBurnInt`: the exact burn units, zero on the all-zero path. -/
def burnIntOf (fw4 : List ℚ) (burnPercentage : ℚ) : ℤ :=
  if allZeroOf fw4 then 0 else jsRound (burnPercentage / 100 * 65535)

/-- `minerTotalInt`: the units left to miners after the burn allocation. -/
def minerTotalOf (fw4 : List ℚ) (burnPercentage : ℚ) : ℤ :=
  if allZeroOf fw4 then 0 else 65535 - burnIntOf fw4 burnPercentage

/-- `minerFloatTargets`: each miner position's proportional share of
minerTotalInt (0 on the all-zero path, when no units are left, or when no
valid miner weight exists). -/
def targetsOf (uids2 : List ℕ) (fw4 : List ℚ) (burnPercentage : ℚ) : List ℚ :=
  (minerIdxOf uids2).map (fun i =>
    if allZeroOf fw4 then 0
    else if minerTotalOf fw4 burnPercentage ≤ 0 then 0
    else if minerSumOf uids2 fw4 ≤ 0 then 0
    else fw4.getD i 0 / minerSumOf uids2 fw4 * ((minerTotalOf fw4 burnPercentage : ℤ) : ℚ))

/-- `minerFloors`: floors of the float targets. -/
def floorsOf (uids2 : List ℕ) (fw4 : List ℚ) (burnPercentage : ℚ) : List ℤ :=
  (targetsOf uids2 fw4 burnPercentage).map (fun v => ⌊v⌋)

/-- `minerRemainder`: units not yet allocated by the floors. -/
def remOf (uids2 : List ℕ) (fw4 : List ℚ) (burnPercentage : ℚ) : ℤ :=
  minerTotalOf fw4 burnPercentage - (floorsOf uids2 fw4 burnPercentage).sum

/-- The miner positions sorted by descending fractional part of their target
(stable, as Array.prototype.sort with the comparator b.frac - a.frac). -/
def orderOf (uids2 : List ℕ) (fw4 : List ℚ) (burnPercentage : ℚ) : List ℕ :=
  stableSort
    (fun a b =>
      (targetsOf uids2 fw4 burnPercentage).getD b 0 -
        ⌊(targetsOf uids2 fw4 burnPercentage).getD b 0⌋ ≤
      (targetsOf uids2 fw4 burnPercentage).getD a 0 -
        ⌊(targetsOf uids2 fw4 burnPercentage).getD a 0⌋)
    (List.range (minerIdxOf uids2).length)

/-- The floors after the largest-remainder distribution of the remaining
units. -/
def floors1Of (uids2 : List ℕ) (fw4 : List ℚ) (burnPercentage : ℚ) : List ℤ :=
  distributeOnes (floorsOf uids2 fw4 burnPercentage)
    ((orderOf uids2 fw4 burnPercentage).take (remOf uids2 fw4 burnPercentage).toNat)

/-- The scaled array before rectification: zeros, the burn units at the burn
position, and the distributed floors at the miner positions. -/
def scaled0Of (uids2 : List ℕ) (fw4 : List ℚ) (burnPercentage : ℚ) : List ℤ :=
  ((minerIdxOf uids2).zip (floors1Of uids2 fw4 burnPercentage)).foldl
    (fun s p => s.set p.1 p.2)
    ((List.replicate uids2.length (0 : ℤ)).set (burnIdxOf uids2)
      (burnIntOf fw4 burnPercentage))

/-- The rectification step run when the total differs from 65535 on the
non-all-zero path: missing units are added to miners round-robin in
descending target order (to the burn position when there are no miners);
excess units are removed from the largest scaled weights, the burn position
last. -/
def rectifyOf (uids2 : List ℕ) (fw4 : List ℚ) (burnPercentage : ℚ)
    (scaled0 : List ℤ) : List ℤ :=
  let minerIdx := minerIdxOf uids2
  let minersCount := minerIdx.length
  let delta := 65535 - scaled0.sum
  if 0 < delta then
    if 0 < minersCount then
      let order2 := stableSort
        (fun a b => (targetsOf uids2 fw4 burnPercentage).getD b 0 ≤
          (targetsOf uids2 fw4 burnPercentage).getD a 0)
        (List.range minersCount)
      addLoop minerIdx order2 minersCount scaled0 delta.toNat 0
    else scaled0.set (burnIdxOf uids2) (scaled0.getD (burnIdxOf uids2) 0 + delta)
  else
    let order3 := stableSort
      (fun a b => scaled0.getD (minerIdx.getD b 0) 0 ≤
        scaled0.getD (minerIdx.getD a 0) 0)
      (List.range minersCount)
    let res := subLoop minerIdx order3 minersCount scaled0 (-delta) 0
      (minersCount * 2 + 2)
    let take := min res.2 (res.1.getD (burnIdxOf uids2) 0)
    res.1.set (burnIdxOf uids2) (res.1.getD (burnIdxOf uids2) 0 - take)

/-- The final scaled array: the all-zero path skips rectification, and so
does a total already equal to 65535. -/
def scaled1Of (uids2 : List ℕ) (fw4 : List ℚ) (burnPercentage : ℚ) : List ℤ :=
  if allZeroOf fw4 then scaled0Of uids2 fw4 burnPercentage
  else if (scaled0Of uids2 fw4 burnPercentage).sum = 65535 then
    scaled0Of uids2 fw4 burnPercentage
  else rectifyOf uids2 fw4 burnPercentage (scaled0Of uids2 fw4 burnPercentage)

/-- Core of setWeightsOnSubtensor from the point where `uids` and
`floatWeights` are fixed arrays: the equal-weights check, the zero-sum check,
burn-UID insertion, largest-remainder scaling with exact burn, and the final
rectification, returning the parallel uid/weight arrays that are submitted. -/
def core (uids1 : List ℕ) (fw1 : List ℚ) (burnPercentage : ℚ) : ScaledOut :=
  let fw3 := zeroSumCheck uids1.length (equalCheck uids1.length fw1)
  let burnPresent := 0 ∈ uids1
  let uids2 := if burnPresent then uids1 else 0 :: uids1
  let fw4 := if burnPresent then fw3 else 0 :: fw3
  { uids := uids2, scaled := scaled1Of uids2 fw4 burnPercentage,
    allZero := allZeroOf fw4 }

/-- The pure submission-vector construction of setWeightsOnSubtensor:
map addresses to UIDs, sanitise the raw weights, fall back to an all-zero
vector over every known UID when nothing mapped (throwing, that is returning
none, when the uid map is empty too), then run the scaling core.  The source
fixes `burnPercentage = 0`; the percentage is kept as a parameter so that the
algorithm can be analysed for any value. -/
def setWeightsVector (weights : List (String × JSNum))
    (addressToUid : List (String × ℕ)) (burnPercentage : ℚ) : Option ScaledOut :=
  let entries := weights.filter (fun e => (alookup addressToUid e.1).isSome)
  let uids0 := entries.map (fun e => (alookup addressToUid e.1).getD 0)
  let fw0 := entries.map (fun e => sanitizeWeight e.2)
  if uids0 = [] then
    let uids1 := addressToUid.map Prod.snd
    if uids1 = [] then none
    else some (core uids1 (List.replicate uids1.length (0 : ℚ)) burnPercentage)
  else some (core uids0 fw0 burnPercentage)

end SetWeights

/-- Assignment `m[k] = v` on a JS object: overwrite in place when the key
exists, otherwise append the new key. -/
def aset {α β : Type} [DecidableEq α] : List (α × β) → α → β → List (α × β)
  | [], k, v => [(k, v)]
  | (k', v') :: t, k, v =>
      if k' = k then (k, v) :: t else (k', v') :: aset t k v

/-- The JS pattern `m[k] = (m[k] || 0) + v` for a rational-valued object. -/
def aadd {α : Type} [DecidableEq α] (m : List (α × ℚ)) (k : α) (v : ℚ) :
    List (α × ℚ) :=
  aset m k (agetD m k 0 + v)

namespace Ema

/-- The guard `isFinite(v) ? v : 0` of updateEma. -/
def safeVal : JSNum → ℚ
  | .num q => q
  | _ => 0

/-- Key set `new Set([...Object.keys(prev), ...Object.keys(curr)])` in
insertion order. -/
def unionKeys (prev curr : List (String × JSNum)) : List String :=
  (prev.map Prod.fst ++ curr.map Prod.fst).foldl insKey []

/-- updateEma from src/validator/index.ts: for every key of either map,
`next[k] = EMA_ALPHA * safeCurr + (1 - EMA_ALPHA) * safePrev` where the safe
values replace non-finite inputs by 0.  The trailing
`if (!isFinite(next[k])) next[k] = 0` guard cannot fire over exact rational
arithmetic and is therefore invisible in the model. -/
def updateEma (alpha : ℚ) (prev curr : List (String × JSNum)) :
    List (String × JSNum) :=
  (unionKeys prev curr).map (fun k =>
    let prevVal := agetD prev k (.num 0)
    let currVal := agetD curr k (.num 0)
    (k, JSNum.num (alpha * safeVal currVal + (1 - alpha) * safeVal prevVal)))

/-- The test `isFinite(w) && w > 0` selecting EMA-eligible miners. -/
def isPosFinite : JSNum → Bool
  | .num q => decide (0 < q)
  | _ => false

/-- `Object.values(minerWeightsRaw).some(v => isFinite(v) && v > 0)` from
runValidator. -/
def hasPositiveEmission (raw : List (String × JSNum)) : Bool :=
  raw.any (fun e => isPosFinite e.2)

/-- The eligible map built in runValidator: raw miner weights restricted to
finite positive values. -/
def emaEligible (raw : List (String × JSNum)) : List (String × JSNum) :=
  raw.filter (fun e => isPosFinite e.2)

/-- Effect of one runValidator pass on the module-scope EMA store: when some
raw weight is finite and positive and EMA is enabled the store becomes
`updateEma prev eligible`; in every other case (no positive weight, or EMA
disabled) the store keeps its previous value. -/
def emaStoreAfterRun (useEma : Bool) (alpha : ℚ)
    (prevStore raw : List (String × JSNum)) : List (String × JSNum) :=
  if hasPositiveEmission raw then
    if useEma then updateEma alpha prevStore (emaEligible raw) else prevStore
  else prevStore

end Ema

/-- A staked concentrated-liquidity position (NFTPosition in the source).
Ticks are i32 integers on chain; liquidity is an unsigned on-chain quantity. -/
structure NFTPosition : Type where
  miner : String
  chain : String
  pool : String
  tokenId : String
  tickLower : ℤ
  tickUpper : ℤ
  liquidity : ℕ
deriving DecidableEq

/-- Current tick data for one pool (PoolTickData in the source). -/
structure PoolTickData : Type where
  tick : ℤ
  subnetId : ℤ
deriving DecidableEq

namespace PoolWeights

/-- Insert pool `p` into the subnet bucket `s` of poolsBySubnet, creating the
bucket when absent and skipping pools already recorded
(the `includes` check in the source). -/
def addPool : List (ℤ × List String) → ℤ → String → List (ℤ × List String)
  | [], s, p => [(s, [p])]
  | (s', ps) :: t, s, p =>
      if s' = s then
        if p ∈ ps then (s', ps) :: t else (s', ps ++ [p]) :: t
      else (s', ps) :: addPool t s p

/-- Group the pools of the positions by the subnet recorded in the tick map;
positions whose pool has no tick data are skipped. -/
def buildPoolsBySubnet (positions : List NFTPosition)
    (tickMap : List (String × PoolTickData)) : List (ℤ × List String) :=
  positions.foldl (fun m pos =>
    match alookup tickMap pos.pool with
    | some td => addPool m td.subnetId pos.pool
    | none => m) []

/-- Result record of the allocator. -/
structure PoolWeightsOut : Type where
  subnetWeights : List (ℤ × ℚ)
  poolWeights : List (String × ℚ)
  poolsBySubnet : List (ℤ × List String)

/-- calculatePoolWeightsWithReservedPools in its six-parameter revision (the
one the validator entry point calls with shares 0.90 and 0.10): reserve a
clamped share for subnet-0 pools and a share clamped to the leftover for
subnet-106 pools, both split equally inside the subnet, then distribute the
remaining share over the other subnets proportionally to alpha prices (equal
split across pools within a subnet), falling back to an equal split over all
their pools when the alpha total is not positive.  JS iterates the numeric
keys of poolsBySubnet in ascending order; the model iterates them in
insertion order, which assigns every pool the same weight and so the same
map. -/
def calculatePoolWeightsWithReservedPools (positions : List NFTPosition)
    (tickMap : List (String × PoolTickData)) (subnetAlphaPrices : List (ℤ × ℚ))
    (filterNetuids : List ℤ) (reservedZeroSubnetShare reservedSubnet106Share : ℚ) :
    PoolWeightsOut :=
  let subnetWeights := filterNetuids.foldl
    (fun m id => aset m id (agetD subnetAlphaPrices id 0)) []
  let poolsBySubnet := buildPoolsBySubnet positions tickMap
  let zeroSubnetPools := agetD poolsBySubnet 0 []
  let subnet106Pools := agetD poolsBySubnet 106 []
  let zeroShare :=
    if zeroSubnetPools ≠ [] then max 0 (min 1 reservedZeroSubnetShare) else 0
  let subnet106Share :=
    if subnet106Pools ≠ [] then max 0 (min (1 - zeroShare) reservedSubnet106Share)
    else 0
  let remainingShare := max 0 (1 - zeroShare - subnet106Share)
  let pw1 : List (String × ℚ) :=
    if zeroSubnetPools ≠ [] then
      zeroSubnetPools.foldl
        (fun m p => aset m p (zeroShare / zeroSubnetPools.length)) []
    else []
  let pw2 :=
    if subnet106Pools ≠ [] ∧ 0 < subnet106Share then
      let perSubnet106Pool :=
        if subnet106Pools ≠ [] then subnet106Share / subnet106Pools.length else 0
      subnet106Pools.foldl (fun m p => aadd m p perSubnet106Pool) pw1
    else pw1
  let nonZeroSubnetIds :=
    (poolsBySubnet.map Prod.fst).filter (fun id => id ≠ 0 ∧ id ≠ 106)
  let totalAlphaNonZero :=
    (nonZeroSubnetIds.map (fun id => agetD subnetWeights id 0)).sum
  let pw3 :=
    if nonZeroSubnetIds = [] then pw2
    else if 0 < totalAlphaNonZero then
      nonZeroSubnetIds.foldl (fun m id =>
        let subnetAlpha := agetD subnetWeights id 0
        let subnetPortion := subnetAlpha / totalAlphaNonZero * remainingShare
        let pools := agetD poolsBySubnet id []
        let perPool := if pools ≠ [] then subnetPortion / pools.length else 0
        pools.foldl (fun m' p => aadd m' p perPool) m) pw2
    else
      let allNonZeroPools :=
        nonZeroSubnetIds.flatMap (fun id => agetD poolsBySubnet id [])
      let perPool :=
        if allNonZeroPools ≠ [] then remainingShare / allNonZeroPools.length else 0
      allNonZeroPools.foldl (fun m p => aadd m p perPool) pw2
  { subnetWeights := subnetWeights, poolWeights := pw3,
    poolsBySubnet := poolsBySubnet }


/-! Staged forms of the let-bindings of calculatePoolWeightsWithReservedPools,
named so the allocation's intermediate maps can be reasoned about
individually; `poolWeights_eq` below records that the staging is
definitionally the function above. -/

/-- The raw subnet-weights map (`subnetWeights` in the source). -/
def swOf (subnetAlphaPrices : List (ℤ × ℚ)) (filterNetuids : List ℤ) :
    List (ℤ × ℚ) :=
  filterNetuids.foldl (fun m id => aset m id (agetD subnetAlphaPrices id 0)) []

/-- `poolsBySubnet` of the allocator. -/
def bpsOf (positions : List NFTPosition)
    (tickMap : List (String × PoolTickData)) : List (ℤ × List String) :=
  buildPoolsBySubnet positions tickMap

/-- `zeroSubnetPools`. -/
def zpOf (positions : List NFTPosition)
    (tickMap : List (String × PoolTickData)) : List String :=
  agetD (bpsOf positions tickMap) 0 []

/-- `subnet106Pools`. -/
def spOf (positions : List NFTPosition)
    (tickMap : List (String × PoolTickData)) : List String :=
  agetD (bpsOf positions tickMap) 106 []

/-- `zeroShare`: the clamped reserved share of the subnet-0 pools. -/
def zeroShareOf (positions : List NFTPosition)
    (tickMap : List (String × PoolTickData)) (reservedZeroSubnetShare : ℚ) : ℚ :=
  if zpOf positions tickMap ≠ [] then max 0 (min 1 reservedZeroSubnetShare)
  else 0

/-- `subnet106Share`: the reserved share of the subnet-106 pools, clamped to
the share left by the subnet-0 reservation. -/
def s106Of (positions : List NFTPosition)
    (tickMap : List (String × PoolTickData))
    (reservedZeroSubnetShare reservedSubnet106Share : ℚ) : ℚ :=
  if spOf positions tickMap ≠ [] then
    max 0 (min (1 - zeroShareOf positions tickMap reservedZeroSubnetShare)
      reservedSubnet106Share)
  else 0

/-- `remainingShare`. -/
def remOf (positions : List NFTPosition)
    (tickMap : List (String × PoolTickData))
    (reservedZeroSubnetShare reservedSubnet106Share : ℚ) : ℚ :=
  max 0 (1 - zeroShareOf positions tickMap reservedZeroSubnetShare -
    s106Of positions tickMap reservedZeroSubnetShare reservedSubnet106Share)

/-- The pool-weights map after the subnet-0 reservation. -/
def pw1Of (positions : List NFTPosition)
    (tickMap : List (String × PoolTickData)) (reservedZeroSubnetShare : ℚ) :
    List (String × ℚ) :=
  if zpOf positions tickMap ≠ [] then
    (zpOf positions tickMap).foldl
      (fun m p => aset m p (zeroShareOf positions tickMap reservedZeroSubnetShare /
        (zpOf positions tickMap).length)) []
  else []

/-- The pool-weights map after the subnet-106 reservation. -/
def pw2Of (positions : List NFTPosition)
    (tickMap : List (String × PoolTickData))
    (reservedZeroSubnetShare reservedSubnet106Share : ℚ) : List (String × ℚ) :=
  if spOf positions tickMap ≠ [] ∧
      0 < s106Of positions tickMap reservedZeroSubnetShare reservedSubnet106Share then
    (spOf positions tickMap).foldl (fun m p => aadd m p
      (if spOf positions tickMap ≠ [] then
        s106Of positions tickMap reservedZeroSubnetShare reservedSubnet106Share /
          (spOf positions tickMap).length
      else 0)) (pw1Of positions tickMap reservedZeroSubnetShare)
  else pw1Of positions tickMap reservedZeroSubnetShare

/-- `nonZeroSubnetIds`. -/
def idsOf (positions : List NFTPosition)
    (tickMap : List (String × PoolTickData)) : List ℤ :=
  ((bpsOf positions tickMap).map Prod.fst).filter (fun id => id ≠ 0 ∧ id ≠ 106)

/-- `totalAlphaNonZero`. -/
def totalAlphaOf (positions : List NFTPosition)
    (tickMap : List (String × PoolTickData)) (subnetAlphaPrices : List (ℤ × ℚ))
    (filterNetuids : List ℤ) : ℚ :=
  ((idsOf positions tickMap).map
    (fun id => agetD (swOf subnetAlphaPrices filterNetuids) id 0)).sum

/-- `allNonZeroPools` of the fallback branch. -/
def anzOf (positions : List NFTPosition)
    (tickMap : List (String × PoolTickData)) : List String :=
  (idsOf positions tickMap).flatMap (fun id => agetD (bpsOf positions tickMap) id [])

/-- The final pool-weights map. -/
def pw3Of (positions : List NFTPosition)
    (tickMap : List (String × PoolTickData)) (subnetAlphaPrices : List (ℤ × ℚ))
    (filterNetuids : List ℤ)
    (reservedZeroSubnetShare reservedSubnet106Share : ℚ) : List (String × ℚ) :=
  if idsOf positions tickMap = [] then
    pw2Of positions tickMap reservedZeroSubnetShare reservedSubnet106Share
  else if 0 < totalAlphaOf positions tickMap subnetAlphaPrices filterNetuids then
    (idsOf positions tickMap).foldl (fun m id =>
      (agetD (bpsOf positions tickMap) id []).foldl (fun m' p => aadd m' p
        (if agetD (bpsOf positions tickMap) id [] ≠ [] then
          agetD (swOf subnetAlphaPrices filterNetuids) id 0 /
              totalAlphaOf positions tickMap subnetAlphaPrices filterNetuids *
              remOf positions tickMap reservedZeroSubnetShare reservedSubnet106Share /
            (agetD (bpsOf positions tickMap) id []).length
        else 0)) m)
      (pw2Of positions tickMap reservedZeroSubnetShare reservedSubnet106Share)
  else
    (anzOf positions tickMap).foldl (fun m p => aadd m p
      (if anzOf positions tickMap ≠ [] then
        remOf positions tickMap reservedZeroSubnetShare reservedSubnet106Share /
          (anzOf positions tickMap).length
      else 0))
      (pw2Of positions tickMap reservedZeroSubnetShare reservedSubnet106Share)

end PoolWeights

/-- A JS number produced by the scoring arithmetic: NaN, an infinity, or a
finite value modelled as an exact real. -/
inductive JSR : Type
  | nan : JSR
  | posInf : JSR
  | negInf : JSR
  | num : ℝ → JSR

open scoped Classical in
/-- IEEE-754 / ECMAScript addition on JSR values (finite arithmetic exact). -/
noncomputable def jadd : JSR → JSR → JSR
  | .nan, _ => .nan
  | _, .nan => .nan
  | .posInf, .negInf => .nan
  | .negInf, .posInf => .nan
  | .posInf, _ => .posInf
  | _, .posInf => .posInf
  | .negInf, _ => .negInf
  | _, .negInf => .negInf
  | .num a, .num b => .num (a + b)

open scoped Classical in
/-- IEEE-754 / ECMAScript multiplication on JSR values: an infinity times
zero is NaN, otherwise signs multiply. -/
noncomputable def jmul : JSR → JSR → JSR
  | .nan, _ => .nan
  | _, .nan => .nan
  | .posInf, .posInf => .posInf
  | .posInf, .negInf => .negInf
  | .negInf, .posInf => .negInf
  | .negInf, .negInf => .posInf
  | .posInf, .num b => if b = 0 then .nan else if 0 < b then .posInf else .negInf
  | .num a, .posInf => if a = 0 then .nan else if 0 < a then .posInf else .negInf
  | .negInf, .num b => if b = 0 then .nan else if 0 < b then .negInf else .posInf
  | .num a, .negInf => if a = 0 then .nan else if 0 < a then .negInf else .posInf
  | .num a, .num b => .num (a * b)

open scoped Classical in
/-- IEEE-754 / ECMAScript division on JSR values.  Finite zeros are modelled
as +0 (no negative zero arises in this pipeline): a positive value divided by
zero is +Infinity, 0/0 and Infinity/Infinity are NaN, a finite value divided
by an infinity is 0. -/
noncomputable def jdiv : JSR → JSR → JSR
  | .nan, _ => .nan
  | _, .nan => .nan
  | .posInf, .posInf => .nan
  | .posInf, .negInf => .nan
  | .negInf, .posInf => .nan
  | .negInf, .negInf => .nan
  | .posInf, .num b => if 0 ≤ b then .posInf else .negInf
  | .negInf, .num b => if 0 ≤ b then .negInf else .posInf
  | .num _, .posInf => .num 0
  | .num _, .negInf => .num 0
  | .num a, .num b =>
      if b = 0 then
        if a = 0 then .nan else if 0 < a then .posInf else .negInf
      else .num (a / b)

open scoped Classical in
/-- Math.pow(x, 1.2): NaN for a negative finite base (non-integer exponent),
x ^ 1.2 as a real power otherwise (0 ^ 1.2 = 0), +Infinity for both infinite
bases. -/
noncomputable def jpow12 : JSR → JSR
  | .nan => .nan
  | .posInf => .posInf
  | .negInf => .posInf
  | .num x => if x < 0 then .nan else .num (x ^ (1.2 : ℝ))

/-- Fold modelling `list.reduce((sum, p) => sum + p.score, 0)`. -/
noncomputable def jsum (l : List JSR) : JSR :=
  l.foldl jadd (.num 0)

namespace Ticks

/-- calculateRewardScore from
src/validator/chains/solana/dexes/raydium/ticks.ts: width penalty
1 / width ^ 1.2, center closeness 1 / (1 + |center - currentTick|), scaled by
liquidity.  The function contains no in-range check and no zero-width guard;
centerWeight is always finite because its denominator is at least 1. -/
noncomputable def calculateRewardScore (position : NFTPosition)
    (currentTick : ℤ) : JSR :=
  let tickLower := position.tickLower
  let tickUpper := position.tickUpper
  let width : ℤ := tickUpper - tickLower
  let center : ℝ := ((tickLower : ℝ) + (tickUpper : ℝ)) / 2
  let distanceFromCenter : ℝ := |center - (currentTick : ℝ)|
  let widthPenalty : JSR := jdiv (.num 1) (jpow12 (.num (width : ℝ)))
  let centerWeight : JSR := .num (1 / (1 + distanceFromCenter))
  let baseScore := jmul widthPenalty centerWeight
  jmul baseScore (.num (position.liquidity : ℝ))

/-- The finite value of the reward score for a position of positive width:
widthPenalty times centerWeight times liquidity, all finite reals. -/
noncomputable def scoreVal (position : NFTPosition) (currentTick : ℤ) : ℝ :=
  1 / (((position.tickUpper - position.tickLower : ℤ) : ℝ) ^ (1.2 : ℝ)) *
    (1 / (1 + |((position.tickLower : ℝ) + (position.tickUpper : ℝ)) / 2 -
      (currentTick : ℝ)|)) * (position.liquidity : ℝ)

/-- findCurrentTick: the tick recorded for the position's pool, when any. -/
def findCurrentTick (position : NFTPosition)
    (currentTickPerPool : List (String × PoolTickData)) : Option ℤ :=
  (alookup currentTickPerPool position.pool).map PoolTickData.tick

/-- Output record of the emission calculation (NFTEmissionResult). -/
structure NFTEmissionResult extends NFTPosition where
  currentTick : ℤ
  score : JSR
  emission : JSR

open scoped Classical in
/-- calculateNFTEmissions: score every position at its pool's current tick
(missing tick data becomes tick 0 through the `|| 0` default), total the
scores, then allocate `score / totalScore * totalReward`, with every
emission 0 when the total score is exactly 0. -/
noncomputable def calculateNFTEmissions (positions : List NFTPosition)
    (currentTickPerPool : List (String × PoolTickData)) (totalReward : ℝ) :
    List NFTEmissionResult :=
  let scored := positions.map (fun pos =>
    let currentTick := (findCurrentTick pos currentTickPerPool).getD 0
    (pos, currentTick, calculateRewardScore pos currentTick))
  let totalScore := scored.foldl (fun s p => jadd s p.2.2) (.num 0)
  scored.map (fun p =>
    { toNFTPosition := p.1, currentTick := p.2.1, score := p.2.2,
      emission :=
        if totalScore = .num 0 then .num 0
        else jmul (jdiv p.2.2 totalScore) (.num totalReward) })

/-- Total finite score of a list of positions (the value of the internal
totalScore accumulator when every score is finite). -/
noncomputable def totalVal (P : List NFTPosition)
    (m : List (String × PoolTickData)) : ℝ :=
  (P.map (fun pos => scoreVal pos ((findCurrentTick pos m).getD 0))).sum

open scoped Classical in
/-- calculatePoolwiseNFTEmissions: group positions by pool in first-occurrence
order, give each pool `poolWeights[pool] * totalReward` (skipping pools whose
reward is not positive: `if (poolReward <= 0) continue`), and run
calculateNFTEmissions inside each remaining pool. -/
noncomputable def calculatePoolwiseNFTEmissions (positions : List NFTPosition)
    (currentTickPerPool : List (String × PoolTickData))
    (poolWeights : List (String × ℝ)) (totalReward : ℝ) :
    List NFTEmissionResult :=
  let keys := (positions.map NFTPosition.pool).foldl insKey []
  keys.flatMap (fun pool =>
    let poolReward := (agetD poolWeights pool 0) * totalReward
    if poolReward ≤ 0 then []
    else
      calculateNFTEmissions (positions.filter (fun pos => pos.pool = pool))
        currentTickPerPool poolReward)

end Ticks

section JSRLemmas

lemma jmul_num_num (a b : ℝ) : jmul (.num a) (.num b) = .num (a * b) := rfl

lemma jadd_num_num (a b : ℝ) : jadd (.num a) (.num b) = .num (a + b) := rfl

lemma jadd_num_posInf (a : ℝ) : jadd (.num a) .posInf = .posInf := rfl

lemma jadd_posInf_num (a : ℝ) : jadd .posInf (.num a) = .posInf := rfl

lemma jdiv_num_posInf (a : ℝ) : jdiv (.num a) .posInf = .num 0 := rfl

lemma jdiv_posInf_posInf : jdiv .posInf .posInf = .nan := rfl

lemma jmul_nan_num (b : ℝ) : jmul .nan (.num b) = .nan := rfl

lemma jadd_nan (x : JSR) : jadd .nan x = .nan := by cases x <;> rfl

lemma jadd_num_nan (a : ℝ) : jadd (.num a) .nan = .nan := rfl

lemma jdiv_num_num (a b : ℝ) (hb : b ≠ 0) :
    jdiv (.num a) (.num b) = .num (a / b) := by
  simp [jdiv, hb]

lemma jdiv_num_zero_pos (a : ℝ) (ha : 0 < a) :
    jdiv (.num a) (.num 0) = .posInf := by
  simp [jdiv, ha.ne', ha]

lemma jmul_posInf_num_pos (b : ℝ) (hb : 0 < b) :
    jmul .posInf (.num b) = .posInf := by
  simp [jmul, hb.ne', hb]

lemma jpow12_num_nonneg (x : ℝ) (hx : 0 ≤ x) :
    jpow12 (.num x) = .num (x ^ (1.2 : ℝ)) := by
  simp [jpow12, not_lt.mpr hx]

lemma num_injective {a b : ℝ} (h : JSR.num a = JSR.num b) : a = b := by
  cases h; rfl

/-- Folding JS addition over finite values is exact real addition. -/
lemma foldl_jadd_map_num (l : List ℝ) (a : ℝ) :
    List.foldl jadd (.num a) (l.map .num) = .num (a + l.sum) := by
  induction l generalizing a with
  | nil => simp
  | cons x t ih =>
      simp only [List.map_cons, List.foldl_cons, jadd_num_num, List.sum_cons, ih]
      ring_nf

end JSRLemmas

namespace Ticks

/-- Closed form of the score for a position of positive width. -/
lemma score_of_width_pos (pos : NFTPosition) (t : ℤ)
    (h : pos.tickLower < pos.tickUpper) :
    calculateRewardScore pos t = .num (scoreVal pos t) := by
  have hw : (0 : ℝ) < ((pos.tickUpper - pos.tickLower : ℤ) : ℝ) := by
    exact_mod_cast sub_pos.mpr h
  have hpow : (0 : ℝ) < ((pos.tickUpper - pos.tickLower : ℤ) : ℝ) ^ (1.2 : ℝ) :=
    Real.rpow_pos_of_pos hw _
  simp only [calculateRewardScore, scoreVal, jpow12_num_nonneg _ hw.le,
    jdiv_num_num _ _ hpow.ne', jmul_num_num]

/-- The finite score value is nonnegative. -/
lemma scoreVal_nonneg (pos : NFTPosition) (t : ℤ)
    (h : pos.tickLower < pos.tickUpper) : 0 ≤ scoreVal pos t := by
  have hw : (0 : ℝ) < ((pos.tickUpper - pos.tickLower : ℤ) : ℝ) := by
    exact_mod_cast sub_pos.mpr h
  have hpow : (0 : ℝ) < ((pos.tickUpper - pos.tickLower : ℤ) : ℝ) ^ (1.2 : ℝ) :=
    Real.rpow_pos_of_pos hw _
  have hd : (0 : ℝ) < 1 + |((pos.tickLower : ℝ) + (pos.tickUpper : ℝ)) / 2 -
      (t : ℝ)| := by positivity
  unfold scoreVal
  positivity

/-- A width-zero position with positive liquidity scores +Infinity. -/
lemma score_of_width_zero (pos : NFTPosition) (t : ℤ)
    (h : pos.tickUpper = pos.tickLower) (hl : 0 < pos.liquidity) :
    calculateRewardScore pos t = .posInf := by
  have hli : (0 : ℝ) < (pos.liquidity : ℝ) := by exact_mod_cast hl
  simp only [calculateRewardScore, h, sub_self]
  rw [show ((0 : ℤ) : ℝ) = (0 : ℝ) by norm_num,
    jpow12_num_nonneg 0 le_rfl, Real.zero_rpow (by norm_num),
    jdiv_num_zero_pos 1 one_pos,
    jmul_posInf_num_pos _ (by positivity), jmul_posInf_num_pos _ hli]

end Ticks

namespace Ticks

lemma foldl_jadd_scores (P : List NFTPosition) (m : List (String × PoolTickData))
    (hw : ∀ pos ∈ P, pos.tickLower < pos.tickUpper) (init : ℝ) :
    (P.map (fun pos =>
        (pos, (findCurrentTick pos m).getD 0,
          calculateRewardScore pos ((findCurrentTick pos m).getD 0)))).foldl
      (fun s p => jadd s p.2.2) (.num init) = .num (init + totalVal P m) := by
  induction P generalizing init with
  | nil => simp [totalVal]
  | cons pos t ih =>
      have h1 := score_of_width_pos pos ((findCurrentTick pos m).getD 0)
        (hw pos (List.mem_cons_self pos t))
      simp only [List.map_cons, List.foldl_cons, h1, jadd_num_num]
      rw [ih (fun q hq => hw q (List.mem_cons_of_mem _ hq))]
      simp only [totalVal, List.map_cons, List.sum_cons]
      ring_nf

lemma calcNFT_emissions_of_total_pos (P : List NFTPosition)
    (m : List (String × PoolTickData)) (R : ℝ)
    (hw : ∀ pos ∈ P, pos.tickLower < pos.tickUpper)
    (hS : totalVal P m ≠ 0) :
    (calculateNFTEmissions P m R).map NFTEmissionResult.emission =
      P.map (fun pos =>
        .num (scoreVal pos ((findCurrentTick pos m).getD 0) / totalVal P m * R)) := by
  simp only [calculateNFTEmissions, foldl_jadd_scores P m hw 0, zero_add,
    List.map_map]
  refine List.map_congr_left ?_
  intro pos hpos
  have h1 := score_of_width_pos pos ((findCurrentTick pos m).getD 0)
    (hw pos hpos)
  have h2 : JSR.num (totalVal P m) ≠ JSR.num 0 := by
    simp only [ne_eq, JSR.num.injEq]; exact hS
  rw [foldl_jadd_scores P m hw 0, zero_add]
  simp only [Function.comp_apply, if_neg h2, h1,
    jdiv_num_num _ _ hS, jmul_num_num]

end Ticks

namespace Ticks

lemma jsum_emissions_of_total_pos (P : List NFTPosition)
    (m : List (String × PoolTickData)) (R : ℝ)
    (hw : ∀ pos ∈ P, pos.tickLower < pos.tickUpper)
    (hS : 0 < totalVal P m) :
    jsum ((calculateNFTEmissions P m R).map NFTEmissionResult.emission) =
      .num R := by
  rw [calcNFT_emissions_of_total_pos P m R hw hS.ne']
  have h1 : (P.map (fun pos =>
      JSR.num (scoreVal pos ((findCurrentTick pos m).getD 0) / totalVal P m * R))) =
      ((P.map (fun pos =>
        scoreVal pos ((findCurrentTick pos m).getD 0) / totalVal P m * R)).map .num) := by
    simp [List.map_map, Function.comp]
  rw [h1, jsum, foldl_jadd_map_num, zero_add]
  congr 1
  have h2 : (P.map (fun pos =>
      scoreVal pos ((findCurrentTick pos m).getD 0) / totalVal P m * R)) =
      (P.map (fun pos =>
        scoreVal pos ((findCurrentTick pos m).getD 0) * ((totalVal P m)⁻¹ * R))) := by
    refine List.map_congr_left ?_; intro q hq; ring_nf
  rw [h2, List.sum_map_mul_right]
  show totalVal P m * ((totalVal P m)⁻¹ * R) = R
  field_simp

lemma calcNFT_emission_zero_of_total_zero (P : List NFTPosition)
    (m : List (String × PoolTickData)) (R : ℝ)
    (hw : ∀ pos ∈ P, pos.tickLower < pos.tickUpper)
    (hS : totalVal P m = 0) :
    ∀ r ∈ calculateNFTEmissions P m R, r.emission = .num 0 := by
  intro r hr
  simp only [calculateNFTEmissions, List.mem_map] at hr
  obtain ⟨p, hp, hrec⟩ := hr
  rw [foldl_jadd_scores P m hw 0, zero_add, hS] at hrec
  rw [← hrec]
  simp

end Ticks

section InsKey

variable {α : Type} [DecidableEq α]

lemma mem_insKey (ks : List α) (k a : α) :
    a ∈ insKey ks k ↔ a ∈ ks ∨ a = k := by
  unfold insKey
  split
  · constructor
    · exact fun h => Or.inl h
    · rintro (h | rfl) <;> [exact h; assumption]
  · simp [or_comm]

lemma nodup_insKey (ks : List α) (k : α) (h : ks.Nodup) :
    (insKey ks k).Nodup := by
  unfold insKey
  split
  · exact h
  · simp_all [List.nodup_append]

lemma mem_foldl_insKey (l : List α) (ks : List α) (a : α) :
    a ∈ l.foldl insKey ks ↔ a ∈ ks ∨ a ∈ l := by
  induction l generalizing ks with
  | nil => simp
  | cons x t ih =>
      simp only [List.foldl_cons, ih, mem_insKey, List.mem_cons]
      tauto

lemma nodup_foldl_insKey (l : List α) (ks : List α) (h : ks.Nodup) :
    (l.foldl insKey ks).Nodup := by
  induction l generalizing ks with
  | nil => exact h
  | cons x t ih => exact ih _ (nodup_insKey _ _ h)

end InsKey

namespace Ticks

lemma mem_calcNFT (P : List NFTPosition) (m : List (String × PoolTickData))
    (R : ℝ) (r : NFTEmissionResult) (hr : r ∈ calculateNFTEmissions P m R) :
    r.toNFTPosition ∈ P ∧ r.currentTick = (findCurrentTick r.toNFTPosition m).getD 0
      ∧ r.score = calculateRewardScore r.toNFTPosition r.currentTick := by
  simp only [calculateNFTEmissions, List.map_map, List.mem_map] at hr
  obtain ⟨pos, hpos, hrec⟩ := hr
  subst hrec
  exact ⟨hpos, rfl, rfl⟩

lemma pool_of_mem_calcNFT (k : String) (P : List NFTPosition)
    (m : List (String × PoolTickData)) (R : ℝ)
    (hP : ∀ pos ∈ P, pos.pool = k) (r : NFTEmissionResult)
    (hr : r ∈ calculateNFTEmissions P m R) : r.pool = k := by
  obtain ⟨hmem, -, -⟩ := mem_calcNFT P m R r hr
  exact hP _ hmem

end Ticks


section FlatMapChunks

/-- Filtering a pool-homogeneous flatMap by one pool key returns that pool's
chunk (or nothing when the key is absent). -/
lemma filter_flatMap_chunk (ks : List String) (hnd : ks.Nodup)
    (f : String → List Ticks.NFTEmissionResult)
    (hf : ∀ k, ∀ r ∈ f k, r.pool = k) (p : String) :
    (ks.flatMap f).filter (fun r => r.pool = p) = if p ∈ ks then f p else [] := by
  induction ks with
  | nil => simp
  | cons k t ih =>
      have hnd' : t.Nodup := hnd.of_cons
      rw [List.flatMap_cons, List.filter_append, ih hnd']
      rcases eq_or_ne p k with rfl | hpk
      · have h1 : (f p).filter (fun r => r.pool = p) = f p :=
          List.filter_eq_self.mpr (fun r hr => by simp [hf p r hr])
        have h2 : p ∉ t := (List.nodup_cons.mp hnd).1
        simp [h1, h2]
      · have h1 : (f k).filter (fun r => r.pool = p) = [] :=
          List.filter_eq_nil_iff.mpr (fun r hr => by simp [hf k r hr, hpk.symm])
        simp [h1, hpk, List.mem_cons]

end FlatMapChunks

namespace Ticks

lemma length_calcNFT (P : List NFTPosition) (m : List (String × PoolTickData))
    (R : ℝ) : (calculateNFTEmissions P m R).length = P.length := by
  simp [calculateNFTEmissions]

open scoped Classical in
lemma length_flatMap_aux (m : List (String × PoolTickData))
    (pw : List (String × ℝ)) (R : ℝ) (ks : List String) (hnd : ks.Nodup) :
    ∀ (P : List NFTPosition), (∀ pos ∈ P, pos.pool ∈ ks) →
    (ks.flatMap (fun pool =>
        if (agetD pw pool 0) * R ≤ 0 then []
        else calculateNFTEmissions (P.filter (fun pos => pos.pool = pool)) m
          ((agetD pw pool 0) * R))).length =
      (P.filter (fun pos => 0 < agetD pw pos.pool 0 * R)).length := by
  induction ks with
  | nil =>
      intro P hP
      have h0 : P = [] := by
        cases P with
        | nil => rfl
        | cons a t => exact absurd (hP a (List.mem_cons_self a t)) (by simp)
      simp [h0]
  | cons k t ih =>
      intro P hP
      have hnd' : t.Nodup := hnd.of_cons
      have hk : k ∉ t := (List.nodup_cons.mp hnd).1
      rw [List.flatMap_cons, List.length_append]
      -- the tail chunks only see positions whose pool is not k
      have htail : (t.flatMap (fun pool =>
          if (agetD pw pool 0) * R ≤ 0 then []
          else calculateNFTEmissions (P.filter (fun pos => pos.pool = pool)) m
            ((agetD pw pool 0) * R))) =
          (t.flatMap (fun pool =>
          if (agetD pw pool 0) * R ≤ 0 then []
          else calculateNFTEmissions
            ((P.filter (fun pos => ¬pos.pool = k)).filter (fun pos => pos.pool = pool)) m
            ((agetD pw pool 0) * R))) := by
        refine List.flatMap_congr ?_
        intro k' hk'
        rcases le_or_lt ((agetD pw k' 0) * R) 0 with hle | hlt
        · simp [hle]
        · rw [if_neg (not_le.mpr hlt), if_neg (not_le.mpr hlt)]
          have hkk : k' ≠ k := fun h => hk (h ▸ hk')
          have hfil : P.filter (fun pos => pos.pool = k') =
              (P.filter (fun pos => ¬pos.pool = k)).filter
                (fun pos => pos.pool = k') := by
            rw [List.filter_filter]
            refine (List.filter_congr ?_)
            intro pos hpos
            rcases eq_or_ne pos.pool k' with hpk | hpk
            · simp [hpk, hkk]
            · simp [hpk]
          rw [hfil]
      rw [htail, ih hnd' (P.filter (fun pos => ¬pos.pool = k)) ?side]
      case side =>
        intro pos hpos
        rw [List.mem_filter] at hpos
        have := hP pos hpos.1
        rw [List.mem_cons] at this
        rcases this with h | h
        · exact absurd h (by simpa using hpos.2)
        · exact h
      -- head chunk length
      have hhead : (if (agetD pw k 0) * R ≤ 0 then []
          else calculateNFTEmissions (P.filter (fun pos => pos.pool = k)) m
            ((agetD pw k 0) * R)).length =
          ((P.filter (fun pos => pos.pool = k)).filter
            (fun pos => 0 < agetD pw pos.pool 0 * R)).length := by
        rcases le_or_lt ((agetD pw k 0) * R) 0 with hle | hlt
        · rw [if_pos hle]
          have : ((P.filter (fun pos => pos.pool = k)).filter
              (fun pos => 0 < agetD pw pos.pool 0 * R)) = [] := by
            refine List.filter_eq_nil_iff.mpr ?_
            intro pos hpos
            rw [List.mem_filter] at hpos
            have hpk : pos.pool = k := by simpa using hpos.2
            simp [hpk, not_lt.mpr hle]
          simp [this]
        · rw [if_neg (not_le.mpr hlt), length_calcNFT]
          have : ((P.filter (fun pos => pos.pool = k)).filter
              (fun pos => 0 < agetD pw pos.pool 0 * R)) =
              P.filter (fun pos => pos.pool = k) := by
            refine List.filter_eq_self.mpr ?_
            intro pos hpos
            rw [List.mem_filter] at hpos
            have hpk : pos.pool = k := by simpa using hpos.2
            simp [hpk, hlt]
          rw [this]
      rw [hhead]
      -- partition the right-hand side by pool = k
      have hsplit := List.length_eq_length_filter_add
        (fun pos : NFTPosition => decide (pos.pool = k))
        (l := P.filter (fun pos => 0 < agetD pw pos.pool 0 * R))
      rw [List.filter_filter, List.filter_filter] at hsplit
      rw [hsplit]
      congr 1
      · congr 1
        rw [List.filter_filter]
        refine List.filter_congr ?_
        intro pos hpos
        by_cases h1 : pos.pool = k <;> by_cases h2 : 0 < agetD pw pos.pool 0 * R <;>
          simp [h1, h2]
      · congr 1
        rw [List.filter_filter]
        refine List.filter_congr ?_
        intro pos hpos
        by_cases h1 : pos.pool = k <;> by_cases h2 : 0 < agetD pw pos.pool 0 * R <;>
          simp [h1, h2]

end Ticks

section ScoringHelpers

lemma rpow_32 : (32 : ℝ) ^ ((6 : ℝ) / 5) = 64 := by
  rw [show (32 : ℝ) = (2 : ℝ) ^ (5 : ℕ) by norm_num,
    ← Real.rpow_natCast 2 5, ← Real.rpow_mul (by norm_num : (0 : ℝ) ≤ 2)]
  rw [show ((5 : ℕ) : ℝ) * ((6 : ℝ) / 5) = ((6 : ℕ) : ℝ) by norm_num]
  rw [Real.rpow_natCast]
  norm_num

lemma scoreVal_C2 :
    Ticks.scoreVal ⟨"m", "solana", "p", "1", 0, 32, 5440⟩ 100 = 1 := by
  unfold Ticks.scoreVal
  norm_num
  rw [rpow_32]
  norm_num

lemma scoreVal_C7 :
    Ticks.scoreVal ⟨"m", "solana", "p", "1", -1, 0, 1⟩ 0 = 2 / 3 := by
  unfold Ticks.scoreVal
  norm_num [Real.one_rpow]
  rw [abs_of_nonneg (by norm_num : (0 : ℝ) ≤ 1 / 2)]
  norm_num

lemma scoreVal_wit :
    Ticks.scoreVal ⟨"mw", "solana", "q", "7", 0, 1, 1⟩ 0 = 2 / 3 := by
  unfold Ticks.scoreVal
  norm_num [Real.one_rpow]
  rw [abs_of_nonneg (by norm_num : (0 : ℝ) ≤ 1 / 2)]
  norm_num

lemma scoreVal_cx :
    Ticks.scoreVal ⟨"m2", "solana", "p", "2", 0, 1, 1⟩ 0 = 2 / 3 := by
  unfold Ticks.scoreVal
  norm_num [Real.one_rpow]
  rw [abs_of_nonneg (by norm_num : (0 : ℝ) ≤ 1 / 2)]
  norm_num

end ScoringHelpers

namespace Ticks

lemma pool_hom_of_branch (positions : List NFTPosition)
    (m : List (String × PoolTickData)) (pw : List (String × ℝ)) (R : ℝ) :
    ∀ k, ∀ r ∈ (if agetD pw k 0 * R ≤ 0 then []
      else calculateNFTEmissions (positions.filter (fun pos => pos.pool = k)) m
        (agetD pw k 0 * R)), r.pool = k := by
  intro k r hr
  by_cases hle : agetD pw k 0 * R ≤ 0
  · rw [if_pos hle] at hr; simp at hr
  · rw [if_neg hle] at hr
    refine pool_of_mem_calcNFT k _ m _ ?_ r hr
    intro pos hpos
    have := (List.mem_filter.mp hpos).2
    simpa using this

lemma mem_poolwise (positions : List NFTPosition)
    (m : List (String × PoolTickData)) (pw : List (String × ℝ)) (R : ℝ)
    (r : NFTEmissionResult)
    (hr : r ∈ calculatePoolwiseNFTEmissions positions m pw R) :
    r.pool ∈ (positions.map NFTPosition.pool).foldl insKey [] ∧
      ¬(agetD pw r.pool 0 * R ≤ 0) ∧
      r ∈ calculateNFTEmissions
        (positions.filter (fun pos => pos.pool = r.pool)) m
        (agetD pw r.pool 0 * R) := by
  have hout : calculatePoolwiseNFTEmissions positions m pw R =
      ((positions.map NFTPosition.pool).foldl insKey []).flatMap (fun pool =>
        if agetD pw pool 0 * R ≤ 0 then []
        else calculateNFTEmissions
          (positions.filter (fun pos => pos.pool = pool)) m
          (agetD pw pool 0 * R)) := rfl
  rw [hout, List.mem_flatMap] at hr
  obtain ⟨k, hk, hrk⟩ := hr
  have hpk : r.pool = k := pool_hom_of_branch positions m pw R k r hrk
  subst hpk
  by_cases hle : agetD pw r.pool 0 * R ≤ 0
  · rw [if_pos hle] at hrk; simp at hrk
  · rw [if_neg hle] at hrk
    exact ⟨hk, hle, hrk⟩

lemma poolwise_chunk (positions : List NFTPosition)
    (m : List (String × PoolTickData)) (pw : List (String × ℝ)) (R : ℝ)
    (p : String) :
    (calculatePoolwiseNFTEmissions positions m pw R).filter
        (fun r => r.pool = p) =
      if p ∈ (positions.map NFTPosition.pool).foldl insKey [] ∧
          ¬(agetD pw p 0 * R ≤ 0) then
        calculateNFTEmissions (positions.filter (fun pos => pos.pool = p)) m
          (agetD pw p 0 * R)
      else [] := by
  have hout : calculatePoolwiseNFTEmissions positions m pw R =
      ((positions.map NFTPosition.pool).foldl insKey []).flatMap (fun pool =>
        if agetD pw pool 0 * R ≤ 0 then []
        else calculateNFTEmissions
          (positions.filter (fun pos => pos.pool = pool)) m
          (agetD pw pool 0 * R)) := rfl
  rw [hout, filter_flatMap_chunk _ (nodup_foldl_insKey _ _ List.nodup_nil) _
    (pool_hom_of_branch positions m pw R) p]
  by_cases hp : p ∈ (positions.map NFTPosition.pool).foldl insKey []
  · rw [if_pos hp]
    by_cases hle : agetD pw p 0 * R ≤ 0
    · rw [if_pos hle, if_neg (by simp [hle])]
    · rw [if_neg hle, if_pos ⟨hp, hle⟩]
  · rw [if_neg hp, if_neg (by simp [hp])]

end Ticks

lemma calcNFT_scores_list (P : List NFTPosition)
    (m : List (String × PoolTickData)) (R : ℝ)
    (hw : ∀ pos ∈ P, pos.tickLower < pos.tickUpper) :
    (Ticks.calculateNFTEmissions P m R).map Ticks.NFTEmissionResult.score =
      P.map (fun pos =>
        .num (Ticks.scoreVal pos ((Ticks.findCurrentTick pos m).getD 0))) := by
  simp only [Ticks.calculateNFTEmissions, List.map_map]
  refine List.map_congr_left ?_
  intro pos hpos
  simp [Ticks.score_of_width_pos pos _ (hw pos hpos)]

lemma calcNFT_emissions_of_total_posInf (P : List NFTPosition)
    (m : List (String × PoolTickData)) (R : ℝ)
    (hTS : (P.map (fun pos =>
        (pos, (Ticks.findCurrentTick pos m).getD 0,
          Ticks.calculateRewardScore pos ((Ticks.findCurrentTick pos m).getD 0)))).foldl
      (fun s p => jadd s p.2.2) (JSR.num 0) = JSR.posInf) :
    (Ticks.calculateNFTEmissions P m R).map Ticks.NFTEmissionResult.emission =
      P.map (fun pos =>
        jmul (jdiv (Ticks.calculateRewardScore pos
          ((Ticks.findCurrentTick pos m).getD 0)) JSR.posInf) (.num R)) := by
  simp only [Ticks.calculateNFTEmissions, List.map_map]
  refine List.map_congr_left ?_
  intro pos hpos
  simp only [Function.comp_apply]
  rw [hTS]
  rw [if_neg (by simp : ¬(JSR.posInf = JSR.num 0))]

/-- Claim C2 (code evaluation at the failing input).  The claim states that a
current tick strictly outside [tickLower, tickUpper] forces score 0 and
emission 0.  The deployed calculateRewardScore contains no in-range check: the
position with range [0, 32] and liquidity 5440, evaluated at current tick 100
(far outside the range), receives score 1 and, as the only position of a
fully weighted pool, emission 1. -/
theorem claim_C2_out_of_range_score :
    Ticks.calculateRewardScore ⟨"m", "solana", "p", "1", 0, 32, 5440⟩ 100 =
      JSR.num 1 ∧
    ((Ticks.calculatePoolwiseNFTEmissions
        [⟨"m", "solana", "p", "1", 0, 32, 5440⟩]
        [("p", ⟨100, 5⟩)] [("p", (1 : ℝ))] 1).map
      (fun r => r.emission)) = [JSR.num 1] := by
  constructor
  · rw [Ticks.score_of_width_pos _ _ (by norm_num), scoreVal_C2]
  · have h1 : Ticks.calculatePoolwiseNFTEmissions
        [⟨"m", "solana", "p", "1", 0, 32, 5440⟩]
        [("p", ⟨100, 5⟩)] [("p", (1 : ℝ))] 1 =
        Ticks.calculateNFTEmissions [⟨"m", "solana", "p", "1", 0, 32, 5440⟩]
          [("p", ⟨100, 5⟩)] 1 := by
      simp [Ticks.calculatePoolwiseNFTEmissions, insKey, agetD, alookup]
    rw [h1]
    rw [Ticks.calcNFT_emissions_of_total_pos _ _ _ ?hw ?hS]
    case hw => intro pos hpos; simp at hpos; subst hpos; norm_num
    case hS =>
      simp [Ticks.totalVal, Ticks.findCurrentTick, alookup, scoreVal_C2]
    simp [Ticks.totalVal, Ticks.findCurrentTick, alookup, scoreVal_C2]

/-- Claim C9 (counterexample).  The claim states that a position with
tickUpper = tickLower is scored with the width treated as 1, keeping the
score finite.  In the code Math.pow(0, 1.2) = 0 and 1/0 is +Infinity, so the
width-zero position below (liquidity 1, scored exactly at its tick) receives
score +Infinity, not the finite value 1/(1 + 0) = 1 that a width of 1 would
give. -/
theorem claim_C9_counterexample :
    Ticks.calculateRewardScore ⟨"m", "solana", "p", "1", 5, 5, 1⟩ 5 =
      JSR.posInf :=
  Ticks.score_of_width_zero _ _ rfl (by norm_num)

/-- Claim C9 (amended).  calculateRewardScore has no zero-width guard: for
every position with tickUpper = tickLower and positive liquidity, at every
current tick, the width penalty divides by Math.pow(0, 1.2) = 0 and the score
is +Infinity rather than a finite real. -/
theorem claim_C9_width_zero_infinite (pos : NFTPosition) (t : ℤ)
    (h : pos.tickUpper = pos.tickLower) (hl : 0 < pos.liquidity) :
    Ticks.calculateRewardScore pos t = JSR.posInf :=
  Ticks.score_of_width_zero pos t h hl

/-- Witness for claim C9's amended theorem at a concrete input. -/
theorem claim_C9_witness :
    Ticks.calculateRewardScore ⟨"w", "ethereum", "pw", "3", -7, -7, 2⟩ 11 =
      JSR.posInf :=
  claim_C9_width_zero_infinite ⟨"w", "ethereum", "pw", "3", -7, -7, 2⟩ 11 rfl
    (by norm_num)

/-- Claim C7 (counterexample).  The claim states that a position whose pool is
missing from the current-tick map ends up with emission 0.  The position
below (range [-1, 0], which contains the substituted tick 0) is scored at
tick 0 and, being alone in a fully weighted pool, receives emission 1. -/
theorem claim_C7_counterexample :
    ((Ticks.calculatePoolwiseNFTEmissions
        [⟨"m", "solana", "p", "1", -1, 0, 1⟩] [] [("p", (1 : ℝ))] 1).map
      (fun r => r.currentTick) = [(0 : ℤ)]) ∧
    ((Ticks.calculatePoolwiseNFTEmissions
        [⟨"m", "solana", "p", "1", -1, 0, 1⟩] [] [("p", (1 : ℝ))] 1).map
      (fun r => r.emission) = [JSR.num 1]) := by
  have h1 : Ticks.calculatePoolwiseNFTEmissions
      [⟨"m", "solana", "p", "1", -1, 0, 1⟩] [] [("p", (1 : ℝ))] 1 =
      Ticks.calculateNFTEmissions [⟨"m", "solana", "p", "1", -1, 0, 1⟩] [] 1 := by
    simp [Ticks.calculatePoolwiseNFTEmissions, insKey, agetD, alookup]
  constructor
  · rw [h1]
    simp [Ticks.calculateNFTEmissions, Ticks.findCurrentTick, alookup]
  · rw [h1]
    rw [Ticks.calcNFT_emissions_of_total_pos _ _ _ ?hw ?hS]
    case hw => intro pos hpos; simp at hpos; subst hpos; norm_num
    case hS =>
      simp [Ticks.totalVal, Ticks.findCurrentTick, alookup, scoreVal_C7]
    simp [Ticks.totalVal, Ticks.findCurrentTick, alookup, scoreVal_C7]

/-- Claim C7 (amended).  Every output record of the pool-wise emission
calculation whose pool has no entry in the current-tick map was scored with
current tick 0 substituted; its emission is whatever that score yields, not
necessarily 0 (see the counterexample). -/
theorem claim_C7_missing_tick_scored_at_zero (positions : List NFTPosition)
    (m : List (String × PoolTickData)) (pw : List (String × ℝ)) (R : ℝ)
    (r : Ticks.NFTEmissionResult)
    (hr : r ∈ Ticks.calculatePoolwiseNFTEmissions positions m pw R)
    (hmiss : alookup m r.pool = none) :
    r.currentTick = 0 ∧
      r.score = Ticks.calculateRewardScore r.toNFTPosition 0 := by
  obtain ⟨-, -, hrc⟩ := Ticks.mem_poolwise positions m pw R r hr
  obtain ⟨hmem, hct, hsc⟩ := Ticks.mem_calcNFT _ _ _ _ hrc
  have hfind : Ticks.findCurrentTick r.toNFTPosition m = none := by
    simp [Ticks.findCurrentTick, hmiss]
  have hct0 : r.currentTick = 0 := by rw [hct, hfind]; rfl
  exact ⟨hct0, by rw [hsc, hct0]⟩

/-- Witness for claim C7's amended theorem at a concrete input. -/
theorem claim_C7_witness :
    ((Ticks.calculatePoolwiseNFTEmissions
        [⟨"m", "solana", "pz", "9", 3, 4, 2⟩] [] [("pz", (1 : ℝ))] 1).getD 0
      ⟨⟨"", "", "", "", 0, 0, 0⟩, 7, JSR.nan, JSR.nan⟩).currentTick = 0 := by
  have h1 : Ticks.calculatePoolwiseNFTEmissions
      [⟨"m", "solana", "pz", "9", 3, 4, 2⟩] [] [("pz", (1 : ℝ))] 1 =
      Ticks.calculateNFTEmissions [⟨"m", "solana", "pz", "9", 3, 4, 2⟩] [] 1 := by
    simp [Ticks.calculatePoolwiseNFTEmissions, insKey, agetD, alookup]
  have hlen : (Ticks.calculatePoolwiseNFTEmissions
      [⟨"m", "solana", "pz", "9", 3, 4, 2⟩] [] [("pz", (1 : ℝ))] 1).length = 1 := by
    rw [h1, Ticks.length_calcNFT]
    rfl
  have hmem : ((Ticks.calculatePoolwiseNFTEmissions
      [⟨"m", "solana", "pz", "9", 3, 4, 2⟩] [] [("pz", (1 : ℝ))] 1).getD 0
      ⟨⟨"", "", "", "", 0, 0, 0⟩, 7, JSR.nan, JSR.nan⟩) ∈
      Ticks.calculatePoolwiseNFTEmissions
        [⟨"m", "solana", "pz", "9", 3, 4, 2⟩] [] [("pz", (1 : ℝ))] 1 := by
    rw [List.getD_eq_getElem _ _ (by rw [hlen]; norm_num)]
    exact List.getElem_mem _
  exact (claim_C7_missing_tick_scored_at_zero _ _ _ _ _ hmem rfl).1

/-- Claim C8 (counterexample).  The claim states that
calculatePoolwiseNFTEmissions returns one record per input position even for
pools with zero or missing weight.  With one position whose pool has no
weight entry, the pool reward is 0 and the source's continue drops the whole
pool: the output is empty. -/
theorem claim_C8_counterexample :
    Ticks.calculatePoolwiseNFTEmissions
      [⟨"m", "solana", "p", "1", 0, 1, 1⟩] [] [] 1 = [] := by
  simp [Ticks.calculatePoolwiseNFTEmissions, insKey, agetD, alookup]

/-- Claim C8 (amended).  calculatePoolwiseNFTEmissions returns exactly one
record for every position whose pool reward poolWeights[pool] * totalReward
is positive; positions in pools with zero, negative or missing weight
produce no record. -/
theorem claim_C8_record_count (positions : List NFTPosition)
    (m : List (String × PoolTickData)) (pw : List (String × ℝ)) (R : ℝ) :
    (Ticks.calculatePoolwiseNFTEmissions positions m pw R).length =
      (positions.filter (fun pos => 0 < agetD pw pos.pool 0 * R)).length := by
  have h := Ticks.length_flatMap_aux m pw R
    ((positions.map NFTPosition.pool).foldl insKey [])
    (nodup_foldl_insKey _ _ List.nodup_nil) positions ?mem
  case mem =>
    intro pos hpos
    rw [mem_foldl_insKey]
    exact Or.inr (List.mem_map_of_mem NFTPosition.pool hpos)
  exact h

/-- Claim C3 (amended).  Pool-wise emission is pool-additive for pools whose
positions all have positive width: with totalReward nonnegative, for every
pool p that produced some record with a positive finite score, the JS sum of
the emissions of p's records is a finite real equal to
poolWeights[p] * totalReward up to the stated tolerance (the exact model
meets it with error 0); and when the scores of p's records sum to 0, every
emission of p is 0.  (Without the added width hypothesis the claim fails:
see the counterexample, where a width-zero position makes the pool's
emission sum NaN.) -/
theorem claim_C3_pool_additivity
    (positions : List NFTPosition) (m : List (String × PoolTickData))
    (pw : List (String × ℝ)) (R : ℝ) (p : String)
    (hR : 0 ≤ R)
    (hw : ∀ pos ∈ positions, pos.pool = p → pos.tickLower < pos.tickUpper) :
    ((∃ r ∈ Ticks.calculatePoolwiseNFTEmissions positions m pw R,
        r.pool = p ∧ ∃ s : ℝ, r.score = JSR.num s ∧ 0 < s) →
      ∃ total : ℝ,
        jsum (((Ticks.calculatePoolwiseNFTEmissions positions m pw R).filter
          (fun r => r.pool = p)).map Ticks.NFTEmissionResult.emission) =
            JSR.num total ∧
        |total - agetD pw p 0 * R| ≤ 1 / 10 ^ 6 * R + 1 / 10 ^ 9) ∧
    (jsum (((Ticks.calculatePoolwiseNFTEmissions positions m pw R).filter
        (fun r => r.pool = p)).map Ticks.NFTEmissionResult.score) = JSR.num 0 →
      ∀ r ∈ Ticks.calculatePoolwiseNFTEmissions positions m pw R, r.pool = p →
        r.emission = JSR.num 0) := by
  have hwP : ∀ pos ∈ positions.filter (fun pos => pos.pool = p),
      pos.tickLower < pos.tickUpper := by
    intro pos hpos
    have h1 := List.mem_filter.mp hpos
    exact hw pos h1.1 (by simpa using h1.2)
  constructor
  · rintro ⟨r, hrmem, hrp, s, hrs, hspos⟩
    obtain ⟨hk, hle, hrc⟩ := Ticks.mem_poolwise positions m pw R r hrmem
    rw [hrp] at hk hle hrc
    obtain ⟨hmem, hct, hsc⟩ := Ticks.mem_calcNFT _ _ _ _ hrc
    have hwr : r.tickLower < r.tickUpper := hwP _ hmem
    have hval : r.score =
        JSR.num (Ticks.scoreVal r.toNFTPosition r.currentTick) := by
      rw [hsc, Ticks.score_of_width_pos _ _ hwr]
    have hseq : s = Ticks.scoreVal r.toNFTPosition r.currentTick :=
      num_injective (hrs.symm.trans hval)
    have hSpos : 0 < Ticks.totalVal
        (positions.filter (fun pos => pos.pool = p)) m := by
      refine lt_of_lt_of_le hspos ?_
      rw [hseq, Ticks.totalVal]
      refine List.single_le_sum ?_ _ ?_
      · intro x hx
        obtain ⟨q, hq, hqx⟩ := List.mem_map.mp hx
        exact hqx ▸ Ticks.scoreVal_nonneg q _ (hwP q hq)
      · rw [hct]
        exact List.mem_map_of_mem _ hmem
    rw [Ticks.poolwise_chunk, if_pos ⟨hk, hle⟩,
      Ticks.jsum_emissions_of_total_pos _ _ _ hwP hSpos]
    refine ⟨agetD pw p 0 * R, rfl, ?_⟩
    rw [sub_self, abs_zero]
    positivity
  · intro htot r hrmem hrp
    obtain ⟨hk, hle, hrc⟩ := Ticks.mem_poolwise positions m pw R r hrmem
    rw [hrp] at hk hle hrc
    rw [Ticks.poolwise_chunk, if_pos ⟨hk, hle⟩] at htot
    have hscores := calcNFT_scores_list
      (positions.filter (fun pos => pos.pool = p)) m (agetD pw p 0 * R) hwP
    rw [hscores] at htot
    have hmapnum : (positions.filter (fun pos => pos.pool = p)).map
        (fun pos => JSR.num
          (Ticks.scoreVal pos ((Ticks.findCurrentTick pos m).getD 0))) =
        ((positions.filter (fun pos => pos.pool = p)).map
          (fun pos =>
            Ticks.scoreVal pos ((Ticks.findCurrentTick pos m).getD 0))).map
          JSR.num := by
      simp [List.map_map, Function.comp]
    rw [hmapnum, jsum, foldl_jadd_map_num, zero_add] at htot
    exact Ticks.calcNFT_emission_zero_of_total_zero _ _ _ hwP
      (num_injective htot) r hrc

/-- Witness for claim C3's amended theorem: one width-1 in-range position in a
fully weighted pool; its emission sum is exactly the pool reward. -/
theorem claim_C3_witness :
    ∃ total : ℝ,
      jsum (((Ticks.calculatePoolwiseNFTEmissions
        [⟨"mw", "solana", "q", "7", 0, 1, 1⟩] [("q", ⟨0, 3⟩)]
        [("q", (1 : ℝ))] 1).filter (fun r => r.pool = "q")).map
          Ticks.NFTEmissionResult.emission) = JSR.num total ∧
      |total - agetD [("q", (1 : ℝ))] "q" 0 * 1| ≤ 1 / 10 ^ 6 * 1 + 1 / 10 ^ 9 := by
  have happ := claim_C3_pool_additivity
    [⟨"mw", "solana", "q", "7", 0, 1, 1⟩] [("q", ⟨0, 3⟩)] [("q", (1 : ℝ))] 1 "q"
    (by norm_num) (by intro pos hpos _; simp at hpos; subst hpos; norm_num)
  refine happ.1 ?_
  have h1 : Ticks.calculatePoolwiseNFTEmissions
      [⟨"mw", "solana", "q", "7", 0, 1, 1⟩] [("q", ⟨0, 3⟩)] [("q", (1 : ℝ))] 1 =
      Ticks.calculateNFTEmissions [⟨"mw", "solana", "q", "7", 0, 1, 1⟩]
        [("q", ⟨0, 3⟩)] 1 := by
    simp [Ticks.calculatePoolwiseNFTEmissions, insKey, agetD, alookup]
  have hct : (Ticks.findCurrentTick ⟨"mw", "solana", "q", "7", 0, 1, 1⟩
      [("q", ⟨0, 3⟩)]).getD 0 = 0 := by
    simp [Ticks.findCurrentTick, alookup]
  have hsc : Ticks.calculateRewardScore ⟨"mw", "solana", "q", "7", 0, 1, 1⟩ 0 =
      JSR.num (2 / 3) := by
    rw [Ticks.score_of_width_pos _ _ (by norm_num), scoreVal_wit]
  rw [h1]
  simp only [Ticks.calculateNFTEmissions, List.map_cons, List.map_nil, hct, hsc]
  exact ⟨_, List.mem_cons_self _ _, rfl, 2 / 3, rfl, by norm_num⟩

/-- Claim C3 (counterexample).  A pool holding a width-zero position (score
+Infinity) and a width-1 position with positive finite score 2/3 has pool
weight 1 and totalReward 1, so the claim asserts the pool's emissions sum to
1 up to tolerance; the code instead yields emissions NaN and 0, whose JS sum
is NaN. -/
theorem claim_C3_counterexample :
    ((Ticks.calculatePoolwiseNFTEmissions
        [⟨"m1", "solana", "p", "1", 5, 5, 1⟩, ⟨"m2", "solana", "p", "2", 0, 1, 1⟩]
        [("p", ⟨0, 5⟩)] [("p", (1 : ℝ))] 1).map
      (fun r => (r.score, r.emission))) =
      [(JSR.posInf, JSR.nan), (JSR.num (2 / 3), JSR.num 0)] ∧
    jsum ((Ticks.calculatePoolwiseNFTEmissions
        [⟨"m1", "solana", "p", "1", 5, 5, 1⟩, ⟨"m2", "solana", "p", "2", 0, 1, 1⟩]
        [("p", ⟨0, 5⟩)] [("p", (1 : ℝ))] 1).map
      (fun r => r.emission)) = JSR.nan := by
  have h1 : Ticks.calculatePoolwiseNFTEmissions
      [⟨"m1", "solana", "p", "1", 5, 5, 1⟩, ⟨"m2", "solana", "p", "2", 0, 1, 1⟩]
      [("p", ⟨0, 5⟩)] [("p", (1 : ℝ))] 1 =
      Ticks.calculateNFTEmissions
        [⟨"m1", "solana", "p", "1", 5, 5, 1⟩, ⟨"m2", "solana", "p", "2", 0, 1, 1⟩]
        [("p", ⟨0, 5⟩)] 1 := by
    simp [Ticks.calculatePoolwiseNFTEmissions, insKey, agetD, alookup]
  have hctA : (Ticks.findCurrentTick ⟨"m1", "solana", "p", "1", 5, 5, 1⟩
      [("p", ⟨0, 5⟩)]).getD 0 = 0 := by
    simp [Ticks.findCurrentTick, alookup]
  have hctB : (Ticks.findCurrentTick ⟨"m2", "solana", "p", "2", 0, 1, 1⟩
      [("p", ⟨0, 5⟩)]).getD 0 = 0 := by
    simp [Ticks.findCurrentTick, alookup]
  have hsA : Ticks.calculateRewardScore ⟨"m1", "solana", "p", "1", 5, 5, 1⟩ 0 =
      JSR.posInf := Ticks.score_of_width_zero _ _ rfl (by norm_num)
  have hsB : Ticks.calculateRewardScore ⟨"m2", "solana", "p", "2", 0, 1, 1⟩ 0 =
      JSR.num (2 / 3) := by
    rw [Ticks.score_of_width_pos _ _ (by norm_num), scoreVal_cx]
  have hTS : (([⟨"m1", "solana", "p", "1", 5, 5, 1⟩,
      ⟨"m2", "solana", "p", "2", 0, 1, 1⟩] : List NFTPosition).map (fun pos =>
        (pos, (Ticks.findCurrentTick pos [("p", ⟨0, 5⟩)]).getD 0,
          Ticks.calculateRewardScore pos
            ((Ticks.findCurrentTick pos [("p", ⟨0, 5⟩)]).getD 0)))).foldl
      (fun s p => jadd s p.2.2) (JSR.num 0) = JSR.posInf := by
    simp only [List.map_cons, List.map_nil, List.foldl_cons, List.foldl_nil,
      hctA, hctB, hsA, hsB, jadd_num_posInf, jadd_posInf_num]
  have hemis : (Ticks.calculateNFTEmissions
      [⟨"m1", "solana", "p", "1", 5, 5, 1⟩, ⟨"m2", "solana", "p", "2", 0, 1, 1⟩]
      [("p", ⟨0, 5⟩)] 1).map Ticks.NFTEmissionResult.emission =
      [JSR.nan, JSR.num 0] := by
    rw [calcNFT_emissions_of_total_posInf _ _ _ hTS]
    simp only [List.map_cons, List.map_nil, hctA, hctB, hsA, hsB,
      jdiv_posInf_posInf, jmul_nan_num, jdiv_num_posInf]
    rw [jmul_num_num]
    norm_num
  have hscores : (Ticks.calculateNFTEmissions
      [⟨"m1", "solana", "p", "1", 5, 5, 1⟩, ⟨"m2", "solana", "p", "2", 0, 1, 1⟩]
      [("p", ⟨0, 5⟩)] 1).map Ticks.NFTEmissionResult.score =
      [JSR.posInf, JSR.num (2 / 3)] := by
    simp only [Ticks.calculateNFTEmissions, List.map_map, List.map_cons,
      List.map_nil, Function.comp_apply, hctA, hctB, hsA, hsB]
  constructor
  · rw [h1]
    have hpair : ∀ (l : List Ticks.NFTEmissionResult),
        l.map (fun r => (r.score, r.emission)) =
          (l.map Ticks.NFTEmissionResult.score).zip
            (l.map Ticks.NFTEmissionResult.emission) := by
      intro l
      induction l with
      | nil => simp
      | cons x t ih => simp [ih]
    rw [hpair, hscores, hemis]
    rfl
  · rw [h1, hemis]
    norm_num [jsum, jadd_num_nan, jadd_nan, jadd_num_num]

section ListArith

lemma sum_set_getD (l : List ℤ) (i : ℕ) (v : ℤ) (h : i < l.length) :
    (l.set i v).sum = l.sum - l.getD i 0 + v := by
  rw [List.sum_set, if_pos h, List.getD_eq_getElem l 0 h]
  have hdec : l.drop i = l[i] :: l.drop (i + 1) := List.drop_eq_getElem_cons h
  have hsum : l.sum = (l.take i).sum + (l.drop i).sum := by
    rw [← List.sum_append, List.take_append_drop]
  rw [hsum, hdec]
  simp only [List.sum_cons]
  ring

lemma sum_incAt (l : List ℤ) (i : ℕ) (h : i < l.length) :
    (incAt l i).sum = l.sum + 1 := by
  unfold incAt
  rw [sum_set_getD l i _ h]
  ring

lemma length_incAt (l : List ℤ) (i : ℕ) : (incAt l i).length = l.length := by
  unfold incAt
  exact List.length_set l i _

lemma sum_distributeOnes (idxs : List ℕ) (l : List ℤ)
    (h : ∀ i ∈ idxs, i < l.length) :
    (SetWeights.distributeOnes l idxs).sum = l.sum + idxs.length := by
  induction idxs generalizing l with
  | nil => simp [SetWeights.distributeOnes]
  | cons i t ih =>
      have hi : i < l.length := h i (List.mem_cons_self i t)
      have hrec := ih (incAt l i) (fun j hj => by
        rw [length_incAt]; exact h j (List.mem_cons_of_mem _ hj))
      unfold SetWeights.distributeOnes at hrec ⊢
      rw [List.foldl_cons, hrec, sum_incAt l i hi]
      simp only [List.length_cons]
      push_cast
      ring

lemma stableInsert_perm {α : Type} (le : α → α → Prop) [DecidableRel le]
    (x : α) (l : List α) : (stableInsert le x l).Perm (x :: l) := by
  induction l with
  | nil => exact List.Perm.refl _
  | cons y t ih =>
      unfold stableInsert
      split
      · exact List.Perm.refl _
      · exact (List.Perm.cons y ih).trans (List.Perm.swap x y t)

lemma stableSort_perm {α : Type} (le : α → α → Prop) [DecidableRel le]
    (l : List α) : (stableSort le l).Perm l := by
  induction l with
  | nil => exact List.Perm.refl _
  | cons x t ih =>
      unfold stableSort
      exact (stableInsert_perm le x _).trans (List.Perm.cons x ih)

end ListArith

section FoldSet

lemma foldl_set_length (ps : List (ℕ × ℤ)) (base : List ℤ) :
    (ps.foldl (fun s q => s.set q.1 q.2) base).length = base.length := by
  induction ps generalizing base with
  | nil => rfl
  | cons p t ih => rw [List.foldl_cons, ih, List.length_set]

lemma foldl_set_sum (ps : List (ℕ × ℤ)) (base : List ℤ)
    (hnd : (ps.map Prod.fst).Nodup)
    (hlt : ∀ p ∈ ps, p.1 < base.length)
    (hzero : ∀ p ∈ ps, base.getD p.1 0 = 0) :
    (ps.foldl (fun s q => s.set q.1 q.2) base).sum =
      base.sum + (ps.map Prod.snd).sum := by
  induction ps generalizing base with
  | nil => simp
  | cons p t ih =>
      rw [List.foldl_cons]
      have hp : p.1 < base.length := hlt p (List.mem_cons_self p t)
      have hnd' : (t.map Prod.fst).Nodup := by
        simpa using (List.nodup_cons.mp (by simpa using hnd)).2
      have hnotin : p.1 ∉ t.map Prod.fst :=
        (List.nodup_cons.mp (by simpa using hnd)).1
      have hrec := ih (base.set p.1 p.2) hnd' ?hlt2 ?hz2
      case hlt2 =>
        intro q hq
        rw [List.length_set]
        exact hlt q (List.mem_cons_of_mem _ hq)
      case hz2 =>
        intro q hq
        have hne : p.1 ≠ q.1 := by
          intro hcontra
          exact hnotin (hcontra ▸ List.mem_map_of_mem Prod.fst hq)
        have hqlt : q.1 < base.length := hlt q (List.mem_cons_of_mem _ hq)
        rw [List.getD_eq_getElem _ 0 (by rw [List.length_set]; exact hqlt)]
        rw [List.getElem_set (by rw [List.length_set]; exact hqlt)]
        rw [if_neg hne]
        rw [← List.getD_eq_getElem _ 0 hqlt]
        exact hzero q (List.mem_cons_of_mem _ hq)
      rw [hrec, sum_set_getD base p.1 p.2 hp,
        hzero p (List.mem_cons_self p t)]
      simp only [List.map_cons, List.sum_cons]
      ring

lemma foldl_set_getD_notin (ps : List (ℕ × ℤ)) (base : List ℤ) (j : ℕ)
    (hj : j ∉ ps.map Prod.fst) :
    (ps.foldl (fun s q => s.set q.1 q.2) base).getD j 0 = base.getD j 0 := by
  induction ps generalizing base with
  | nil => rfl
  | cons p t ih =>
      rw [List.foldl_cons]
      have hj1 : j ∉ t.map Prod.fst := fun h => hj (List.mem_cons_of_mem _ h)
      have hne : p.1 ≠ j := by
        intro hcontra
        exact hj (by simp [← hcontra])
      rw [ih _ hj1]
      by_cases hjlt : j < base.length
      · rw [List.getD_eq_getElem _ 0 (by rw [List.length_set]; exact hjlt),
          List.getElem_set (by rw [List.length_set]; exact hjlt), if_neg hne,
          ← List.getD_eq_getElem _ 0 hjlt]
      · rw [List.getD_eq_default _ 0 (by rw [List.length_set]; omega),
          List.getD_eq_default _ 0 (by omega)]

lemma foldl_set_all_zero (ps : List (ℕ × ℤ)) (base : List ℤ)
    (hbase : ∀ x ∈ base, x = 0) (hvals : ∀ p ∈ ps, p.2 = 0) :
    ∀ x ∈ ps.foldl (fun s q => s.set q.1 q.2) base, x = 0 := by
  induction ps generalizing base with
  | nil => exact hbase
  | cons p t ih =>
      rw [List.foldl_cons]
      refine ih _ ?_ (fun q hq => hvals q (List.mem_cons_of_mem _ hq))
      intro x hx
      have := List.mem_or_eq_of_mem_set hx
      rcases this with h | h
      · exact hbase x h
      · rw [h]
        exact hvals p (List.mem_cons_self p t)

end FoldSet

namespace SetWeights

lemma length_equalCheck (n : ℕ) (fw1 : List ℚ) (h : fw1.length = n) :
    (equalCheck n fw1).length = n := by
  unfold equalCheck
  simp only []
  split
  · exact List.length_replicate n 0
  · exact h

lemma nonneg_equalCheck (n : ℕ) (fw1 : List ℚ) (h : ∀ w ∈ fw1, 0 ≤ w) :
    ∀ w ∈ equalCheck n fw1, 0 ≤ w := by
  unfold equalCheck
  simp only []
  split
  · intro w hw
    rw [List.eq_of_mem_replicate hw]
  · exact h

lemma length_zeroSumCheck (n : ℕ) (fw2 : List ℚ) (h : fw2.length = n) :
    (zeroSumCheck n fw2).length = n := by
  unfold zeroSumCheck
  split
  · exact List.length_replicate n 0
  · exact h

lemma nonneg_zeroSumCheck (n : ℕ) (fw2 : List ℚ) (h : ∀ w ∈ fw2, 0 ≤ w) :
    ∀ w ∈ zeroSumCheck n fw2, 0 ≤ w := by
  unfold zeroSumCheck
  split
  · intro w hw
    rw [List.eq_of_mem_replicate hw]
  · exact h

lemma getD_nonneg (fw : List ℚ) (h : ∀ w ∈ fw, 0 ≤ w) (i : ℕ) :
    0 ≤ fw.getD i 0 := by
  by_cases hi : i < fw.length
  · rw [List.getD_eq_getElem _ 0 hi]
    exact h _ (List.getElem_mem hi)
  · rw [List.getD_eq_default _ 0 (by omega)]

lemma sanitizeQ_of_nonneg (q : ℚ) (h : 0 ≤ q) : sanitizeQ q = q := by
  unfold sanitizeQ
  rcases lt_or_eq_of_le h with h1 | h1
  · rw [if_pos h1]
  · rw [← h1]
    norm_num

lemma burnIdx_lt (uids2 : List ℕ) (h : 0 ∈ uids2) :
    burnIdxOf uids2 < uids2.length :=
  List.indexOf_lt_length.mpr h

lemma minerIdx_nodup (uids2 : List ℕ) : (minerIdxOf uids2).Nodup :=
  (List.nodup_range _).filter _

lemma minerIdx_lt (uids2 : List ℕ) : ∀ i ∈ minerIdxOf uids2, i < uids2.length := by
  intro i hi
  have := (List.mem_filter.mp hi).1
  exact List.mem_range.mp this

lemma minerIdx_ne_burn (uids2 : List ℕ) :
    ∀ i ∈ minerIdxOf uids2, i ≠ burnIdxOf uids2 := by
  intro i hi
  have := (List.mem_filter.mp hi).2
  simpa using this

lemma mem_minerIdx (uids2 : List ℕ) (i : ℕ) (h1 : i < uids2.length)
    (h2 : i ≠ burnIdxOf uids2) : i ∈ minerIdxOf uids2 := by
  rw [minerIdxOf, List.mem_filter]
  exact ⟨List.mem_range.mpr h1, by simpa using h2⟩

lemma minerSum_eq (uids2 : List ℕ) (fw4 : List ℚ) (h : ∀ w ∈ fw4, 0 ≤ w) :
    minerSumOf uids2 fw4 = ((minerIdxOf uids2).map (fun i => fw4.getD i 0)).sum := by
  unfold minerSumOf
  congr 1
  refine List.map_congr_left ?_
  intro i _
  exact sanitizeQ_of_nonneg _ (getD_nonneg fw4 h i)

end SetWeights

namespace SetWeights

lemma intCast_list_sum (l : List ℤ) :
    ((l.sum : ℤ) : ℚ) = (l.map (fun z : ℤ => (z : ℚ))).sum := by
  induction l with
  | nil => simp
  | cons x t ih => simp only [List.sum_cons, List.map_cons]; push_cast [ih]; ring

lemma targets_sum (uids2 : List ℕ) (fw4 : List ℚ) (bp : ℚ)
    (h4 : ∀ w ∈ fw4, 0 ≤ w)
    (hAZ : allZeroOf fw4 = false)
    (hM : 0 < minerTotalOf fw4 bp)
    (hS : 0 < minerSumOf uids2 fw4) :
    (targetsOf uids2 fw4 bp).sum = ((minerTotalOf fw4 bp : ℤ) : ℚ) := by
  unfold targetsOf
  have hAZ' : allZeroOf fw4 ≠ true := by rw [hAZ]; simp
  have hcong : (minerIdxOf uids2).map (fun i =>
      if allZeroOf fw4 then 0
      else if minerTotalOf fw4 bp ≤ 0 then 0
      else if minerSumOf uids2 fw4 ≤ 0 then 0
      else fw4.getD i 0 / minerSumOf uids2 fw4 * ((minerTotalOf fw4 bp : ℤ) : ℚ)) =
      (minerIdxOf uids2).map (fun i =>
        fw4.getD i 0 * ((minerSumOf uids2 fw4)⁻¹ * ((minerTotalOf fw4 bp : ℤ) : ℚ))) := by
    refine List.map_congr_left ?_
    intro i _
    rw [if_neg hAZ', if_neg (not_le.mpr hM), if_neg (not_le.mpr hS)]
    ring
  rw [hcong, List.sum_map_mul_right, ← minerSum_eq uids2 fw4 h4]
  field_simp

lemma floors_le_targets (uids2 : List ℕ) (fw4 : List ℚ) (bp : ℚ) :
    (((floorsOf uids2 fw4 bp).sum : ℤ) : ℚ) ≤ (targetsOf uids2 fw4 bp).sum := by
  unfold floorsOf
  have h1 : (((targetsOf uids2 fw4 bp).map (fun v => ⌊v⌋)).sum : ℚ) =
      ((targetsOf uids2 fw4 bp).map (fun v => ((⌊v⌋ : ℤ) : ℚ))).sum := by
    rw [intCast_list_sum, List.map_map]
    rfl
  rw [h1]
  have h2 : (targetsOf uids2 fw4 bp).sum =
      ((targetsOf uids2 fw4 bp).map id).sum := by rw [List.map_id]
  rw [h2]
  refine List.sum_le_sum ?_
  intro v _
  exact Int.floor_le v

lemma targets_sub_floors_lt (uids2 : List ℕ) (fw4 : List ℚ) (bp : ℚ)
    (hne : minerIdxOf uids2 ≠ []) :
    (targetsOf uids2 fw4 bp).sum - (((floorsOf uids2 fw4 bp).sum : ℤ) : ℚ) <
      (minerIdxOf uids2).length := by
  unfold floorsOf
  have h1 : (((targetsOf uids2 fw4 bp).map (fun v => ⌊v⌋)).sum : ℚ) =
      ((targetsOf uids2 fw4 bp).map (fun v => ((⌊v⌋ : ℤ) : ℚ))).sum := by
    rw [intCast_list_sum, List.map_map]
    rfl
  rw [h1]
  have hlen : (targetsOf uids2 fw4 bp).length = (minerIdxOf uids2).length := by
    unfold targetsOf
    exact List.length_map _ _
  -- sum of fractional parts is strictly below the count
  have key : ∀ (l : List ℚ), l ≠ [] →
      l.sum - (l.map (fun v => ((⌊v⌋ : ℤ) : ℚ))).sum < l.length := by
    intro l hl
    induction l with
    | nil => exact absurd rfl hl
    | cons x t ih =>
        rcases eq_or_ne t [] with rfl | ht
        · simp only [List.sum_cons, List.map_cons, List.map_nil, List.sum_nil,
            List.length_cons, List.length_nil, List.sum_nil]
          have := Int.lt_floor_add_one x
          push_cast
          linarith
        · have hrec := ih ht
          simp only [List.sum_cons, List.map_cons, List.length_cons]
          have := Int.lt_floor_add_one x
          push_cast at hrec ⊢
          linarith
  have hne2 : targetsOf uids2 fw4 bp ≠ [] := by
    intro hc
    have := hlen
    rw [hc] at this
    simp at this
    exact hne (List.length_eq_zero.mp this.symm)
  have := key (targetsOf uids2 fw4 bp) hne2
  rw [hlen] at this
  exact this

end SetWeights

namespace SetWeights

lemma length_floorsOf (uids2 : List ℕ) (fw4 : List ℚ) (bp : ℚ) :
    (floorsOf uids2 fw4 bp).length = (minerIdxOf uids2).length := by
  unfold floorsOf targetsOf
  simp

lemma order_mem_lt (uids2 : List ℕ) (fw4 : List ℚ) (bp : ℚ) :
    ∀ j ∈ orderOf uids2 fw4 bp, j < (minerIdxOf uids2).length := by
  intro j hj
  unfold orderOf at hj
  have := (stableSort_perm _ (List.range (minerIdxOf uids2).length)).mem_iff.mp hj
  exact List.mem_range.mp this

lemma length_orderOf (uids2 : List ℕ) (fw4 : List ℚ) (bp : ℚ) :
    (orderOf uids2 fw4 bp).length = (minerIdxOf uids2).length := by
  unfold orderOf
  rw [(stableSort_perm _ (List.range (minerIdxOf uids2).length)).length_eq,
    List.length_range]

/-- With a positive miner weight sum and burn percentage in range, the
largest-remainder step allocates exactly minerTotalInt units to the floors. -/
lemma floors1_sum (uids2 : List ℕ) (fw4 : List ℚ) (bp : ℚ)
    (h4 : ∀ w ∈ fw4, 0 ≤ w)
    (hAZ : allZeroOf fw4 = false)
    (hS : 0 < minerSumOf uids2 fw4)
    (hMnn : 0 ≤ minerTotalOf fw4 bp)
    (hne : minerIdxOf uids2 ≠ []) :
    (floors1Of uids2 fw4 bp).sum = minerTotalOf fw4 bp := by
  rcases lt_or_eq_of_le hMnn with hM | hM
  · -- positive miner total: the floors sum to M - rem, and rem units are added
    have htargets := targets_sum uids2 fw4 bp h4 hAZ hM hS
    have hrem_nonneg : 0 ≤ remOf uids2 fw4 bp := by
      unfold remOf
      have h1 := floors_le_targets uids2 fw4 bp
      rw [htargets] at h1
      have : ((floorsOf uids2 fw4 bp).sum : ℚ) ≤ ((minerTotalOf fw4 bp : ℤ) : ℚ) := h1
      exact_mod_cast sub_nonneg.mpr (by exact_mod_cast this)
    have hrem_lt : remOf uids2 fw4 bp < ((minerIdxOf uids2).length : ℤ) := by
      unfold remOf
      have h2 := targets_sub_floors_lt uids2 fw4 bp hne
      rw [htargets] at h2
      exact_mod_cast h2
    unfold floors1Of
    have htake_len : ((orderOf uids2 fw4 bp).take (remOf uids2 fw4 bp).toNat).length =
        (remOf uids2 fw4 bp).toNat := by
      rw [List.length_take, length_orderOf]
      omega
    have hvalid : ∀ i ∈ (orderOf uids2 fw4 bp).take (remOf uids2 fw4 bp).toNat,
        i < (floorsOf uids2 fw4 bp).length := by
      intro i hi
      rw [length_floorsOf]
      exact order_mem_lt uids2 fw4 bp i (List.mem_of_mem_take hi)
    rw [sum_distributeOnes _ _ hvalid, htake_len]
    unfold remOf at hrem_nonneg ⊢
    omega
  · -- minerTotalInt = 0: every target is 0, nothing to distribute
    have htz : targetsOf uids2 fw4 bp =
        (minerIdxOf uids2).map (fun _ => (0 : ℚ)) := by
      unfold targetsOf
      refine List.map_congr_left ?_
      intro i _
      rw [if_neg (by rw [hAZ]; simp), if_pos (by omega)]
    have hfz : floorsOf uids2 fw4 bp = (minerIdxOf uids2).map (fun _ => (0 : ℤ)) := by
      unfold floorsOf
      rw [htz, List.map_map]
      refine List.map_congr_left ?_
      intro i _
      simp [Function.comp]
    have hfs : (floorsOf uids2 fw4 bp).sum = 0 := by
      rw [hfz]
      simp
    have hrem0 : remOf uids2 fw4 bp = 0 := by
      unfold remOf
      omega
    unfold floors1Of
    rw [hrem0]
    simp only [Int.toNat_zero, List.take_zero]
    unfold distributeOnes
    rw [List.foldl_nil, hfs, ← hM]

end SetWeights

namespace SetWeights

lemma length_floors1Of (uids2 : List ℕ) (fw4 : List ℚ) (bp : ℚ) :
    (floors1Of uids2 fw4 bp).length = (minerIdxOf uids2).length := by
  unfold floors1Of distributeOnes
  have : ∀ (idxs : List ℕ) (l : List ℤ), (idxs.foldl incAt l).length = l.length := by
    intro idxs
    induction idxs with
    | nil => intro l; rfl
    | cons i t ih => intro l; rw [List.foldl_cons, ih, length_incAt]
  rw [this, length_floorsOf]

lemma base_sum (uids2 : List ℕ) (B : ℤ) (h0 : 0 ∈ uids2) :
    ((List.replicate uids2.length (0 : ℤ)).set (burnIdxOf uids2) B).sum = B := by
  have hlt : burnIdxOf uids2 < (List.replicate uids2.length (0 : ℤ)).length := by
    rw [List.length_replicate]
    exact burnIdx_lt uids2 h0
  rw [sum_set_getD _ _ _ hlt]
  have h1 : (List.replicate uids2.length (0 : ℤ)).sum = 0 := by simp
  have h2 : (List.replicate uids2.length (0 : ℤ)).getD (burnIdxOf uids2) 0 = 0 := by
    rw [List.getD_eq_getElem _ 0 hlt]
    simp
  rw [h1, h2]
  ring

lemma scaled0_sum (uids2 : List ℕ) (fw4 : List ℚ) (bp : ℚ) (h0 : 0 ∈ uids2) :
    (scaled0Of uids2 fw4 bp).sum =
      burnIntOf fw4 bp + (floors1Of uids2 fw4 bp).sum := by
  unfold scaled0Of
  have hlen : (floors1Of uids2 fw4 bp).length = (minerIdxOf uids2).length :=
    length_floors1Of uids2 fw4 bp
  have hfst : (((minerIdxOf uids2).zip (floors1Of uids2 fw4 bp)).map Prod.fst) =
      minerIdxOf uids2 :=
    List.map_fst_zip _ _ (by rw [hlen])
  have hsnd : (((minerIdxOf uids2).zip (floors1Of uids2 fw4 bp)).map Prod.snd) =
      floors1Of uids2 fw4 bp :=
    List.map_snd_zip _ _ (by rw [hlen])
  have hbaselen : ((List.replicate uids2.length (0 : ℤ)).set (burnIdxOf uids2)
      (burnIntOf fw4 bp)).length = uids2.length := by
    rw [List.length_set, List.length_replicate]
  rw [foldl_set_sum _ _ ?nd ?lt ?z]
  case nd => rw [hfst]; exact minerIdx_nodup uids2
  case lt =>
    intro p hp
    rw [hbaselen]
    exact minerIdx_lt uids2 p.1 (hfst ▸ List.mem_map_of_mem Prod.fst hp)
  case z =>
    intro p hp
    have hmem : p.1 ∈ minerIdxOf uids2 := hfst ▸ List.mem_map_of_mem Prod.fst hp
    have hplt : p.1 < uids2.length := minerIdx_lt uids2 p.1 hmem
    have hne : burnIdxOf uids2 ≠ p.1 := (minerIdx_ne_burn uids2 p.1 hmem).symm
    rw [List.getD_eq_getElem _ 0 (by rw [hbaselen]; exact hplt),
      List.getElem_set (by rw [hbaselen]; exact hplt), if_neg hne]
    simp
  rw [hsnd, base_sum uids2 _ h0]

lemma scaled0_getD_burn (uids2 : List ℕ) (fw4 : List ℚ) (bp : ℚ) (h0 : 0 ∈ uids2) :
    (scaled0Of uids2 fw4 bp).getD (burnIdxOf uids2) 0 = burnIntOf fw4 bp := by
  unfold scaled0Of
  have hlen : (floors1Of uids2 fw4 bp).length = (minerIdxOf uids2).length :=
    length_floors1Of uids2 fw4 bp
  have hfst : (((minerIdxOf uids2).zip (floors1Of uids2 fw4 bp)).map Prod.fst) =
      minerIdxOf uids2 :=
    List.map_fst_zip _ _ (by rw [hlen])
  have hnotin : burnIdxOf uids2 ∉
      ((minerIdxOf uids2).zip (floors1Of uids2 fw4 bp)).map Prod.fst := by
    rw [hfst]
    intro hmem
    exact (minerIdx_ne_burn uids2 _ hmem) rfl
  rw [foldl_set_getD_notin _ _ _ hnotin]
  have hlt : burnIdxOf uids2 < (List.replicate uids2.length (0 : ℤ)).length := by
    rw [List.length_replicate]
    exact burnIdx_lt uids2 h0
  rw [List.getD_eq_getElem _ 0 (by rw [List.length_set]; exact hlt),
    List.getElem_set (by rw [List.length_set]; exact hlt), if_pos rfl]

end SetWeights

namespace SetWeights

lemma scaled1_allZero (uids2 : List ℕ) (fw4 : List ℚ) (bp : ℚ)
    (hAZ : allZeroOf fw4 = true) :
    (∀ x ∈ scaled1Of uids2 fw4 bp, x = 0) ∧ (scaled1Of uids2 fw4 bp).sum = 0 := by
  have hB : burnIntOf fw4 bp = 0 := by unfold burnIntOf; rw [hAZ]; rfl
  have hM : minerTotalOf fw4 bp = 0 := by unfold minerTotalOf; rw [hAZ]; rfl
  have htz : targetsOf uids2 fw4 bp = (minerIdxOf uids2).map (fun _ => (0 : ℚ)) := by
    unfold targetsOf
    refine List.map_congr_left ?_
    intro i _
    rw [if_pos (by rw [hAZ])]
  have hfz : ∀ x ∈ floorsOf uids2 fw4 bp, x = 0 := by
    intro x hx
    unfold floorsOf at hx
    rw [htz, List.map_map] at hx
    obtain ⟨i, _, hix⟩ := List.mem_map.mp hx
    simp only [Function.comp_apply] at hix
    rw [← hix]
    simp
  have hfsum : (floorsOf uids2 fw4 bp).sum = 0 := List.sum_eq_zero hfz
  have hrem0 : remOf uids2 fw4 bp = 0 := by
    unfold remOf
    rw [hM, hfsum]
    ring
  have hf1 : floors1Of uids2 fw4 bp = floorsOf uids2 fw4 bp := by
    unfold floors1Of
    rw [hrem0]
    simp only [Int.toNat_zero, List.take_zero]
    unfold distributeOnes
    rw [List.foldl_nil]
  have hs0 : ∀ x ∈ scaled0Of uids2 fw4 bp, x = 0 := by
    unfold scaled0Of
    refine foldl_set_all_zero _ _ ?_ ?_
    · intro x hx
      rcases List.mem_or_eq_of_mem_set hx with h | h
      · exact List.eq_of_mem_replicate h
      · rw [h, hB]
    · intro p hp
      have := (List.of_mem_zip hp).2
      rw [hf1] at this
      exact hfz _ this
  have hs1 : scaled1Of uids2 fw4 bp = scaled0Of uids2 fw4 bp := by
    unfold scaled1Of
    rw [hAZ]
    simp
  rw [hs1]
  exact ⟨hs0, List.sum_eq_zero hs0⟩

end SetWeights

namespace SetWeights

lemma jsRound_bounds (bp : ℚ) (h0 : 0 ≤ bp) (h1 : bp ≤ 100) :
    0 ≤ jsRound (bp / 100 * 65535) ∧ jsRound (bp / 100 * 65535) ≤ 65535 := by
  unfold jsRound
  constructor
  · refine Int.le_floor.mpr ?_
    push_cast
    nlinarith
  · have : bp / 100 * 65535 + 1 / 2 < ((65536 : ℤ) : ℚ) := by
      push_cast
      nlinarith
    have h2 := Int.floor_lt.mpr this
    omega

/-- The non-all-zero, positive-miner-sum path: the scaled vector sums to
exactly 65535 with the exact burn units at the burn position, and no
rectification takes place. -/
lemma scaled1_of_not_allZero (uids2 : List ℕ) (fw4 : List ℚ) (bp : ℚ)
    (h0 : 0 ∈ uids2) (h4 : ∀ w ∈ fw4, 0 ≤ w)
    (hAZ : allZeroOf fw4 = false) (hS : 0 < minerSumOf uids2 fw4)
    (hne : minerIdxOf uids2 ≠ []) (hbp0 : 0 ≤ bp) (hbp1 : bp ≤ 100) :
    (scaled1Of uids2 fw4 bp).sum = 65535 ∧
    (scaled1Of uids2 fw4 bp).getD (burnIdxOf uids2) 0 =
      jsRound (bp / 100 * 65535) := by
  have hBdef : burnIntOf fw4 bp = jsRound (bp / 100 * 65535) := by
    unfold burnIntOf
    rw [hAZ]
    rfl
  have hMdef : minerTotalOf fw4 bp = 65535 - burnIntOf fw4 bp := by
    unfold minerTotalOf
    rw [hAZ]
    rfl
  have hbnd := jsRound_bounds bp hbp0 hbp1
  have hMnn : 0 ≤ minerTotalOf fw4 bp := by
    rw [hMdef, hBdef]
    omega
  have hfl := floors1_sum uids2 fw4 bp h4 hAZ hS hMnn hne
  have hsum0 : (scaled0Of uids2 fw4 bp).sum = 65535 := by
    rw [scaled0_sum uids2 fw4 bp h0, hfl, hMdef]
    ring
  have hs1 : scaled1Of uids2 fw4 bp = scaled0Of uids2 fw4 bp := by
    unfold scaled1Of
    rw [hAZ]
    simp only [Bool.false_eq_true, if_false]
    rw [if_pos hsum0]
  rw [hs1, hsum0, scaled0_getD_burn uids2 fw4 bp h0, hBdef]
  exact ⟨rfl, rfl⟩

end SetWeights

namespace SetWeights

lemma sanitizeQ_nonneg (q : ℚ) : 0 ≤ sanitizeQ q := by
  unfold sanitizeQ
  split
  · linarith [show (0:ℚ) < q from by assumption]
  · exact le_refl 0

lemma minerSum_pos_of_pos_at (uids2 : List ℕ) (fw4 : List ℚ) (i0 : ℕ)
    (hmem : i0 ∈ minerIdxOf uids2) (hpos : 0 < fw4.getD i0 0) :
    0 < minerSumOf uids2 fw4 := by
  unfold minerSumOf
  have helem : sanitizeQ (fw4.getD i0 0) ∈
      (minerIdxOf uids2).map (fun i => sanitizeQ (fw4.getD i 0)) :=
    List.mem_map_of_mem _ hmem
  have hval : sanitizeQ (fw4.getD i0 0) = fw4.getD i0 0 :=
    sanitizeQ_of_nonneg _ hpos.le
  have := List.single_le_sum (l := (minerIdxOf uids2).map
    (fun i => sanitizeQ (fw4.getD i 0))) ?_ _ helem
  · rw [hval] at this
    linarith
  · intro x hx
    obtain ⟨j, _, hj⟩ := List.mem_map.mp hx
    rw [← hj]
    exact sanitizeQ_nonneg _

lemma headD_mem {α : Type} (l : List α) (d : α) (h : l ≠ []) : l.headD d ∈ l := by
  cases l with
  | nil => exact absurd rfl h
  | cons x t => exact List.mem_cons_self x t

/-- Reachability: when the float weights after the equal-weights and zero-sum
checks are not all zero, at least two distinct positive values passed the
equal-weights check, so some miner position carries positive weight. -/
lemma stage_reach (uids1 : List ℕ) (fw1 : List ℚ)
    (hnn : ∀ w ∈ fw1, 0 ≤ w) (hlen : fw1.length = uids1.length)
    (hAZ : allZeroOf (if 0 ∈ uids1 then
        zeroSumCheck uids1.length (equalCheck uids1.length fw1)
      else 0 :: zeroSumCheck uids1.length (equalCheck uids1.length fw1)) = false) :
    0 < minerSumOf (if 0 ∈ uids1 then uids1 else 0 :: uids1)
        (if 0 ∈ uids1 then zeroSumCheck uids1.length (equalCheck uids1.length fw1)
         else 0 :: zeroSumCheck uids1.length (equalCheck uids1.length fw1)) ∧
      minerIdxOf (if 0 ∈ uids1 then uids1 else 0 :: uids1) ≠ [] := by
  set fw2 := equalCheck uids1.length fw1 with hfw2
  set fw3 := zeroSumCheck uids1.length fw2 with hfw3
  set uids2 := (if 0 ∈ uids1 then uids1 else 0 :: uids1) with huids2
  set fw4 := (if 0 ∈ uids1 then fw3 else 0 :: fw3) with hfw4
  -- a positive entry of fw4 exists
  have h3nn : ∀ w ∈ fw3, 0 ≤ w :=
    nonneg_zeroSumCheck _ _ (nonneg_equalCheck _ _ hnn)
  have h4nn : ∀ w ∈ fw4, 0 ≤ w := by
    rw [hfw4]
    split
    · exact h3nn
    · intro w hw
      rcases List.mem_cons.mp hw with h | h
      · rw [h]
      · exact h3nn w h
  have hex : ∃ w ∈ fw4, 0 < w := by
    unfold allZeroOf at hAZ
    rw [decide_eq_false_iff_not] at hAZ
    push_neg at hAZ
    obtain ⟨w, hw, hwne⟩ := hAZ
    exact ⟨w, hw, lt_of_le_of_ne (h4nn w hw) (Ne.symm hwne)⟩
  obtain ⟨w, hw4, hwpos⟩ := hex
  -- it comes from fw3, hence from fw2, hence from fw1
  have hw3 : w ∈ fw3 := by
    rw [hfw4] at hw4
    rcases (em (0 ∈ uids1)) with h | h
    · rwa [if_pos h] at hw4
    · rw [if_neg h] at hw4
      rcases List.mem_cons.mp hw4 with hz | hm
      · rw [hz] at hwpos; exact absurd hwpos (by norm_num)
      · exact hm
  have hfw3eq : fw3 = fw2 := by
    rw [hfw3]
    unfold zeroSumCheck
    split
    · exfalso
      rw [hfw3] at hw3
      unfold zeroSumCheck at hw3
      rw [if_pos (by assumption)] at hw3
      have := List.eq_of_mem_replicate hw3
      rw [this] at hwpos
      exact absurd hwpos (by norm_num)
    · rfl
  have hw2 : w ∈ fw2 := hfw3eq ▸ hw3
  -- the equal-weights check did not fire, so two distinct positives exist
  have hcond : ¬((fw1.filter (fun w => 0 < w)) ≠ [] ∧
      ∀ x ∈ fw1.filter (fun w => 0 < w),
        |x - (fw1.filter (fun w => 0 < w)).headD 0| < 1 / 10 ^ 10) := by
    intro hc
    have : fw2 = List.replicate uids1.length 0 := by
      rw [hfw2]
      unfold equalCheck
      simp only []
      rw [if_pos (by exact_mod_cast hc)]
    rw [this] at hw2
    have := List.eq_of_mem_replicate hw2
    rw [this] at hwpos
    exact absurd hwpos (by norm_num)
  have hfw2eq : fw2 = fw1 := by
    rw [hfw2]
    unfold equalCheck
    simp only []
    rw [if_neg (by exact_mod_cast hcond)]
  have hw1 : w ∈ fw1 := hfw2eq ▸ hw2
  have hnz_ne : fw1.filter (fun w => 0 < w) ≠ [] := by
    intro hc
    have : w ∈ fw1.filter (fun x => 0 < x) :=
      List.mem_filter.mpr ⟨hw1, by simpa using hwpos⟩
    rw [hc] at this
    simp at this
  push_neg at hcond
  obtain ⟨w', hw'nz, hw'far⟩ := hcond hnz_ne
  set hd := (fw1.filter (fun w => 0 < w)).headD 0 with hhd
  have hhd_nz : hd ∈ fw1.filter (fun w => 0 < w) := headD_mem _ _ hnz_ne
  have hd_pos : 0 < hd := by
    have := (List.mem_filter.mp hhd_nz).2
    simpa using this
  have hw'_pos : 0 < w' := by
    have := (List.mem_filter.mp hw'nz).2
    simpa using this
  have hd_mem : hd ∈ fw1 := (List.mem_filter.mp hhd_nz).1
  have hw'_mem : w' ∈ fw1 := (List.mem_filter.mp hw'nz).1
  have hdiff : w' ≠ hd := by
    intro hc
    rw [hc, sub_self, abs_zero] at hw'far
    exact absurd hw'far (by norm_num)
  -- two distinct indices with positive entries in fw1
  obtain ⟨i, hi, hieq0⟩ := List.mem_iff_getElem.mp hd_mem
  obtain ⟨j, hj, hjeq0⟩ := List.mem_iff_getElem.mp hw'_mem
  have hieq : fw1.getD i 0 = hd := by
    rw [List.getD_eq_getElem _ 0 hi, hieq0]
  have hjeq : fw1.getD j 0 = w' := by
    rw [List.getD_eq_getElem _ 0 hj, hjeq0]
  have hij : i ≠ j := by
    intro hc
    rw [hc, hjeq] at hieq
    exact hdiff hieq
  -- transfer to fw4
  have hfw31 : fw3 = fw1 := hfw3eq.trans hfw2eq
  have h4getD : ∀ k, k < fw1.length →
      fw4.getD (if 0 ∈ uids1 then k else k + 1) 0 = fw1.getD k 0 := by
    intro k hk
    rw [hfw4, hfw31]
    rcases em (0 ∈ uids1) with h | h
    · rw [if_pos h, if_pos h]
    · rw [if_neg h, if_neg h]
      rfl
  have h24len : fw4.length = uids2.length := by
    rw [hfw4, huids2, hfw31]
    rcases em (0 ∈ uids1) with h | h
    · rw [if_pos h, if_pos h, hlen]
    · rw [if_neg h, if_neg h]
      simp [hlen]
  set i' := (if 0 ∈ uids1 then i else i + 1) with hi'
  set j' := (if 0 ∈ uids1 then j else j + 1) with hj'
  have hi'lt : i' < uids2.length := by
    rw [← h24len, hfw4, hfw31, hi']
    rcases em (0 ∈ uids1) with h | h
    · rw [if_pos h, if_pos h]; exact hi
    · rw [if_neg h, if_neg h]; simpa using hi
  have hj'lt : j' < uids2.length := by
    rw [← h24len, hfw4, hfw31, hj']
    rcases em (0 ∈ uids1) with h | h
    · rw [if_pos h, if_pos h]; exact hj
    · rw [if_neg h, if_neg h]; simpa using hj
  have hi'pos : 0 < fw4.getD i' 0 := by
    rw [hi', h4getD i hi, hieq]
    exact hd_pos
  have hj'pos : 0 < fw4.getD j' 0 := by
    rw [hj', h4getD j hj, hjeq]
    exact hw'_pos
  have hij' : i' ≠ j' := by
    rw [hi', hj']
    rcases em (0 ∈ uids1) with h | h
    · rw [if_pos h, if_pos h]; exact hij
    · rw [if_neg h, if_neg h]; omega
  -- at least one of the two positive positions is a miner position
  have hcase : ∃ i0, i0 ∈ minerIdxOf uids2 ∧ 0 < fw4.getD i0 0 := by
    rcases eq_or_ne i' (burnIdxOf uids2) with hib | hib
    · refine ⟨j', mem_minerIdx uids2 j' hj'lt ?_, hj'pos⟩
      rw [← hib]
      exact hij'.symm
    · exact ⟨i', mem_minerIdx uids2 i' hi'lt hib, hi'pos⟩
  obtain ⟨i0, hi0mem, hi0pos⟩ := hcase
  exact ⟨minerSum_pos_of_pos_at uids2 fw4 i0 hi0mem hi0pos,
    fun hc => by rw [hc] at hi0mem; simp at hi0mem⟩

end SetWeights

namespace SetWeights

lemma fw4_nonneg (uids1 : List ℕ) (fw1 : List ℚ) (hnn : ∀ w ∈ fw1, 0 ≤ w) :
    ∀ w ∈ (if 0 ∈ uids1 then
        zeroSumCheck uids1.length (equalCheck uids1.length fw1)
      else 0 :: zeroSumCheck uids1.length (equalCheck uids1.length fw1)), 0 ≤ w := by
  have h3nn : ∀ w ∈ zeroSumCheck uids1.length (equalCheck uids1.length fw1), 0 ≤ w :=
    nonneg_zeroSumCheck _ _ (nonneg_equalCheck _ _ hnn)
  split
  · exact h3nn
  · intro w hw
    rcases List.mem_cons.mp hw with h | h
    · rw [h]
    · exact h3nn w h

lemma zero_mem_uids2 (uids1 : List ℕ) :
    0 ∈ (if 0 ∈ uids1 then uids1 else 0 :: uids1) := by
  split
  · assumption
  · exact List.mem_cons_self 0 uids1

lemma core_eq (uids1 : List ℕ) (fw1 : List ℚ) (bp : ℚ) :
    core uids1 fw1 bp =
      { uids := if 0 ∈ uids1 then uids1 else 0 :: uids1,
        scaled := scaled1Of (if 0 ∈ uids1 then uids1 else 0 :: uids1)
          (if 0 ∈ uids1 then zeroSumCheck uids1.length (equalCheck uids1.length fw1)
           else 0 :: zeroSumCheck uids1.length (equalCheck uids1.length fw1)) bp,
        allZero := allZeroOf
          (if 0 ∈ uids1 then zeroSumCheck uids1.length (equalCheck uids1.length fw1)
           else 0 :: zeroSumCheck uids1.length (equalCheck uids1.length fw1)) } := rfl

lemma core_spec (uids1 : List ℕ) (fw1 : List ℚ) (bp : ℚ)
    (hnn : ∀ w ∈ fw1, 0 ≤ w) (hlen : fw1.length = uids1.length)
    (hbp0 : 0 ≤ bp) (hbp1 : bp ≤ 100) :
    ((core uids1 fw1 bp).allZero = true →
      (core uids1 fw1 bp).scaled.sum = 0 ∧
        ∀ x ∈ (core uids1 fw1 bp).scaled, x = 0) ∧
    ((core uids1 fw1 bp).allZero = false →
      (core uids1 fw1 bp).scaled.sum = 65535 ∧
        (core uids1 fw1 bp).scaled.getD ((core uids1 fw1 bp).uids.indexOf 0) 0 =
          jsRound (bp / 100 * 65535)) := by
  rw [core_eq]
  constructor
  · intro hAZ
    have h := scaled1_allZero (if 0 ∈ uids1 then uids1 else 0 :: uids1)
      (if 0 ∈ uids1 then zeroSumCheck uids1.length (equalCheck uids1.length fw1)
       else 0 :: zeroSumCheck uids1.length (equalCheck uids1.length fw1)) bp hAZ
    exact ⟨h.2, h.1⟩
  · intro hAZ
    have hreach := stage_reach uids1 fw1 hnn hlen hAZ
    have h := scaled1_of_not_allZero
      (if 0 ∈ uids1 then uids1 else 0 :: uids1)
      (if 0 ∈ uids1 then zeroSumCheck uids1.length (equalCheck uids1.length fw1)
       else 0 :: zeroSumCheck uids1.length (equalCheck uids1.length fw1)) bp
      (zero_mem_uids2 uids1) (fw4_nonneg uids1 fw1 hnn) hAZ hreach.1 hreach.2
      hbp0 hbp1
    exact h

end SetWeights

namespace SetWeights

lemma setWeightsVector_cases (weights : List (String × JSNum))
    (addressToUid : List (String × ℕ)) (bp : ℚ) (out : ScaledOut)
    (hout : setWeightsVector weights addressToUid bp = some out) :
    ∃ uids1 fw1, (∀ w ∈ fw1, 0 ≤ w) ∧ fw1.length = uids1.length ∧
      (fw1 = List.replicate uids1.length 0 ∨
        fw1 = (weights.filter
          (fun e => (alookup addressToUid e.1).isSome)).map
          (fun e => sanitizeWeight e.2)) ∧
      out = core uids1 fw1 bp := by
  unfold setWeightsVector at hout
  by_cases hemp : (weights.filter
      (fun e => (alookup addressToUid e.1).isSome)).map
      (fun e => (alookup addressToUid e.1).getD 0) = []
  · rw [if_pos hemp] at hout
    by_cases hu : addressToUid.map Prod.snd = []
    · rw [if_pos hu] at hout
      exact absurd hout (by simp)
    · rw [if_neg hu] at hout
      refine ⟨addressToUid.map Prod.snd,
        List.replicate (addressToUid.map Prod.snd).length 0, ?_, ?_,
        Or.inl rfl, ?_⟩
      · intro w hw
        rw [List.eq_of_mem_replicate hw]
      · exact List.length_replicate _ _
      · exact (Option.some_injective _ hout).symm
  · rw [if_neg hemp] at hout
    refine ⟨(weights.filter (fun e => (alookup addressToUid e.1).isSome)).map
        (fun e => (alookup addressToUid e.1).getD 0),
      (weights.filter (fun e => (alookup addressToUid e.1).isSome)).map
        (fun e => sanitizeWeight e.2), ?_, ?_, Or.inr rfl, ?_⟩
    · intro w hw
      obtain ⟨e, _, he⟩ := List.mem_map.mp hw
      rw [← he]
      unfold sanitizeWeight
      cases e.2 with
      | num q =>
          simp only []
          split
          · linarith [show (0:ℚ) < q from by assumption]
          · exact le_refl 0
      | nan => exact le_refl 0
      | posInf => exact le_refl 0
      | negInf => exact le_refl 0
    · simp
    · exact (Option.some_injective _ hout).symm

end SetWeights

/-- Claim C1.  For every weights map, uid map and burn percentage in
[0, 100], the vector built by setWeightsOnSubtensor sums to exactly 65535
and carries round(burn_percentage / 100 * 65535) at the burn UID's position;
on the all-zero policy path the sum is 0 instead (and every entry is 0). -/
theorem claim_C1_scaling_law (weights : List (String × JSNum))
    (addressToUid : List (String × ℕ)) (burnPercentage : ℚ)
    (hbp0 : 0 ≤ burnPercentage) (hbp1 : burnPercentage ≤ 100)
    (out : ScaledOut)
    (hout : SetWeights.setWeightsVector weights addressToUid burnPercentage =
      some out) :
    (out.allZero = true → out.scaled.sum = 0) ∧
    (out.allZero = false → out.scaled.sum = 65535 ∧
      out.scaled.getD (out.uids.indexOf 0) 0 =
        jsRound (burnPercentage / 100 * 65535)) := by
  obtain ⟨uids1, fw1, hnn, hlen, -, hcore⟩ :=
    SetWeights.setWeightsVector_cases weights addressToUid burnPercentage out hout
  subst hcore
  have h := SetWeights.core_spec uids1 fw1 burnPercentage hnn hlen hbp0 hbp1
  exact ⟨fun hAZ => (h.1 hAZ).1, h.2⟩


namespace SetWeights

/-- When every pair of positive float weights lies within 1e-10, the
equal-weights check (or, when no weight is positive, the zero-sum check)
zeroes the whole vector. -/
lemma allZero_of_equal_positives (uids1 : List ℕ) (fw1 : List ℚ)
    (hnn : ∀ w ∈ fw1, 0 ≤ w)
    (hpair : ∀ x ∈ fw1, ∀ y ∈ fw1, 0 < x → 0 < y → |x - y| < 1 / 10 ^ 10) :
    allZeroOf (if 0 ∈ uids1 then
        zeroSumCheck uids1.length (equalCheck uids1.length fw1)
      else 0 :: zeroSumCheck uids1.length (equalCheck uids1.length fw1)) = true := by
  have h3 : zeroSumCheck uids1.length (equalCheck uids1.length fw1) =
      List.replicate uids1.length 0 := by
    by_cases hnz : fw1.filter (fun w => 0 < w) = []
    · have hall0 : ∀ w ∈ fw1, w = 0 := by
        intro w hw
        by_contra hne
        have hpos : 0 < w := lt_of_le_of_ne (hnn w hw) (Ne.symm hne)
        have : w ∈ fw1.filter (fun x => 0 < x) :=
          List.mem_filter.mpr ⟨hw, by simpa using hpos⟩
        rw [hnz] at this
        simp at this
      have h2 : equalCheck uids1.length fw1 = fw1 := by
        unfold equalCheck
        simp only []
        rw [if_neg (by intro hc; exact hc.1 (by exact_mod_cast hnz))]
      rw [h2]
      unfold zeroSumCheck
      rw [if_pos (le_of_eq (List.sum_eq_zero hall0))]
    · have h2 : equalCheck uids1.length fw1 = List.replicate uids1.length 0 := by
        unfold equalCheck
        simp only []
        rw [if_pos ?cond]
        case cond =>
          refine ⟨by exact_mod_cast hnz, ?_⟩
          intro w hw
          have hwm := List.mem_filter.mp hw
          have hdm := List.mem_filter.mp (headD_mem _ (0:ℚ) hnz)
          exact hpair w hwm.1 _ hdm.1 (by simpa using hwm.2) (by simpa using hdm.2)
      rw [h2]
      unfold zeroSumCheck
      rw [if_pos (by simp)]
  rw [h3]
  unfold allZeroOf
  rw [decide_eq_true_eq]
  split
  · intro w hw
    exact List.eq_of_mem_replicate hw
  · intro w hw
    rcases List.mem_cons.mp hw with h | h
    · exact h
    · exact List.eq_of_mem_replicate h

end SetWeights

/-- Claim C10.  If every strictly positive entry of the weights map is within
1e-10 of every other, setWeightsOnSubtensor discards them all (the
"all non-zero weights equal, likely an error" check) and submits the
all-zero vector: the all-zero flag is set, every submitted weight is 0 and
the total is 0. -/
theorem claim_C10_equal_weights_zeroed (weights : List (String × JSNum))
    (addressToUid : List (String × ℕ))
    (heq : ∀ e1 ∈ weights, ∀ e2 ∈ weights, ∀ q1 q2 : ℚ,
      e1.2 = JSNum.num q1 → e2.2 = JSNum.num q2 → 0 < q1 → 0 < q2 →
      |q1 - q2| < 1 / 10 ^ 10)
    (out : ScaledOut)
    (hout : SetWeights.setWeightsVector weights addressToUid 0 = some out) :
    out.allZero = true ∧ out.scaled.sum = 0 ∧ ∀ x ∈ out.scaled, x = 0 := by
  obtain ⟨uids1, fw1, hnn, hlen, horigin, hcore⟩ :=
    SetWeights.setWeightsVector_cases weights addressToUid 0 out hout
  have hpair : ∀ x ∈ fw1, ∀ y ∈ fw1, 0 < x → 0 < y → |x - y| < 1 / 10 ^ 10 := by
    rcases horigin with h | h
    · intro x hx
      rw [h] at hx
      rw [List.eq_of_mem_replicate hx]
      intro y _ hx0 _
      exact absurd hx0 (by norm_num)
    · intro x hx y hy hx0 hy0
      rw [h] at hx hy
      obtain ⟨e1, he1, he1x⟩ := List.mem_map.mp hx
      obtain ⟨e2, he2, he2y⟩ := List.mem_map.mp hy
      have he1w : e1 ∈ weights := List.mem_of_mem_filter he1
      have he2w : e2 ∈ weights := List.mem_of_mem_filter he2
      have h1 : e1.2 = JSNum.num x := by
        cases hc : e1.2 with
        | num q =>
            rw [hc] at he1x
            unfold sanitizeWeight at he1x
            simp only [] at he1x
            split at he1x
            · rw [he1x]
            · rw [← he1x] at hx0; exact absurd hx0 (by norm_num)
        | nan =>
            rw [hc] at he1x; rw [← he1x] at hx0; simp [sanitizeWeight] at hx0
        | posInf =>
            rw [hc] at he1x; rw [← he1x] at hx0; simp [sanitizeWeight] at hx0
        | negInf =>
            rw [hc] at he1x; rw [← he1x] at hx0; simp [sanitizeWeight] at hx0
      have h2 : e2.2 = JSNum.num y := by
        cases hc : e2.2 with
        | num q =>
            rw [hc] at he2y
            unfold sanitizeWeight at he2y
            simp only [] at he2y
            split at he2y
            · rw [he2y]
            · rw [← he2y] at hy0; exact absurd hy0 (by norm_num)
        | nan =>
            rw [hc] at he2y; rw [← he2y] at hy0; simp [sanitizeWeight] at hy0
        | posInf =>
            rw [hc] at he2y; rw [← he2y] at hy0; simp [sanitizeWeight] at hy0
        | negInf =>
            rw [hc] at he2y; rw [← he2y] at hy0; simp [sanitizeWeight] at hy0
      exact heq e1 he1w e2 he2w x y h1 h2 hx0 hy0
  have hAZ : (SetWeights.core uids1 fw1 0).allZero = true := by
    rw [SetWeights.core_eq]
    exact SetWeights.allZero_of_equal_positives uids1 fw1 hnn hpair
  subst hcore
  have h := SetWeights.scaled1_allZero
    (if 0 ∈ uids1 then uids1 else 0 :: uids1)
    (if 0 ∈ uids1 then SetWeights.zeroSumCheck uids1.length
        (SetWeights.equalCheck uids1.length fw1)
      else 0 :: SetWeights.zeroSumCheck uids1.length
        (SetWeights.equalCheck uids1.length fw1)) 0
    (by rw [SetWeights.core_eq] at hAZ; exact hAZ)
  rw [SetWeights.core_eq]
  exact ⟨by rw [SetWeights.core_eq] at hAZ; exact hAZ, h.2, h.1⟩

/-- Claim C6 (amended).  When the weights map contains no entry with a
positive finite value, setWeightsOnSubtensor builds an all-zero submission
(all-zero flag set, every weight 0, total 0, rectification skipped); when the
map is moreover empty, the vector covers every UID of the hotkey-to-UID map
(plus the burn UID 0).  With a non-empty all-zero weights map, only the
mapped UIDs (plus the burn UID) appear in the vector — see the
counterexample. -/
theorem claim_C6_all_zero_submission (weights : List (String × JSNum))
    (addressToUid : List (String × ℕ))
    (hz : ∀ e ∈ weights, sanitizeWeight e.2 = 0)
    (out : ScaledOut)
    (hout : SetWeights.setWeightsVector weights addressToUid 0 = some out) :
    out.allZero = true ∧ out.scaled.sum = 0 ∧ (∀ x ∈ out.scaled, x = 0) ∧
      (weights = [] → ∀ u ∈ addressToUid.map Prod.snd, u ∈ out.uids) := by
  obtain ⟨uids1, fw1, hnn, hlen, horigin, hcore⟩ :=
    SetWeights.setWeightsVector_cases weights addressToUid 0 out hout
  have hz1 : ∀ w ∈ fw1, w = 0 := by
    rcases horigin with h | h
    · intro w hw
      rw [h] at hw
      exact List.eq_of_mem_replicate hw
    · intro w hw
      rw [h] at hw
      obtain ⟨e, he, hew⟩ := List.mem_map.mp hw
      rw [← hew]
      exact hz e (List.mem_of_mem_filter he)
  have hpair : ∀ x ∈ fw1, ∀ y ∈ fw1, 0 < x → 0 < y → |x - y| < 1 / 10 ^ 10 := by
    intro x hx y _ hx0 _
    rw [hz1 x hx] at hx0
    exact absurd hx0 (by norm_num)
  have hAZ := SetWeights.allZero_of_equal_positives uids1 fw1 hnn hpair
  have h := SetWeights.scaled1_allZero
    (if 0 ∈ uids1 then uids1 else 0 :: uids1)
    (if 0 ∈ uids1 then SetWeights.zeroSumCheck uids1.length
        (SetWeights.equalCheck uids1.length fw1)
      else 0 :: SetWeights.zeroSumCheck uids1.length
        (SetWeights.equalCheck uids1.length fw1)) 0 hAZ
  subst hcore
  refine ⟨by rw [SetWeights.core_eq]; exact hAZ,
    by rw [SetWeights.core_eq]; exact h.2,
    by rw [SetWeights.core_eq]; exact h.1, ?_⟩
  intro hwe u hu
  subst hwe
  unfold SetWeights.setWeightsVector at hout
  simp only [List.filter_nil, List.map_nil, if_pos rfl] at hout
  by_cases hu2 : addressToUid.map Prod.snd = []
  · rw [if_pos hu2] at hout
    exact absurd hout (by simp)
  · rw [if_neg hu2] at hout
    rw [if_pos trivial] at hout
    have hEQ := Option.some_injective _ hout
    have huids := congrArg ScaledOut.uids hEQ
    rw [SetWeights.core_eq, SetWeights.core_eq] at huids
    simp only [] at huids
    show u ∈ (SetWeights.core uids1 fw1 0).uids
    rw [SetWeights.core_eq]
    simp only []
    rw [← huids]
    split
    · exact hu
    · exact List.mem_cons_of_mem 0 hu

/-- Claim C6 counterexample: a non-empty all-zero weights map ({"a": 0},
uid map a->1, b->2) produces a vector over uids [0, 1] only; uid 2, though
present in the hotkey-to-UID map, is absent, so the submission does not
cover "all UIDs" as the claim states. -/
theorem claim_C6_counterexample :
    (SetWeights.setWeightsVector [("a", JSNum.num 0)] [("a", 1), ("b", 2)] 0).map
      ScaledOut.uids = some [0, 1] ∧
    alookup [("a", 1), ("b", 2)] "b" = some 2 ∧ ¬((2 : ℕ) ∈ [0, 1]) := by
  have hout : SetWeights.setWeightsVector [("a", JSNum.num 0)] [("a", 1), ("b", 2)] 0 =
      some (SetWeights.core [1] [0] 0) := by
    simp [SetWeights.setWeightsVector, alookup, sanitizeWeight]
  have huids : (SetWeights.core [1] [0] 0).uids = [0, 1] := by
    rw [SetWeights.core_eq]
    norm_num
  refine ⟨?_, by simp [alookup], by norm_num⟩
  rw [hout]
  simp [huids]

/-- Witness for C1 at weights {"a": 2, "b": 1}, uid map a->1, b->2,
burn percentage 50. -/
theorem claim_C1_witness :
    (SetWeights.core [1, 2] [2, 1] 50).scaled.sum = 65535 ∧
    (SetWeights.core [1, 2] [2, 1] 50).scaled.getD
      ((SetWeights.core [1, 2] [2, 1] 50).uids.indexOf 0) 0 =
      jsRound (50 / 100 * 65535) := by
  have hout : SetWeights.setWeightsVector
      [("a", JSNum.num 2), ("b", JSNum.num 1)] [("a", 1), ("b", 2)] 50 =
      some (SetWeights.core [1, 2] [2, 1] 50) := by
    simp [SetWeights.setWeightsVector, alookup, sanitizeWeight]
  have h := claim_C1_scaling_law _ _ 50 (by norm_num) (by norm_num) _ hout
  have hAZ : (SetWeights.core [1, 2] [2, 1] 50).allZero = false := by
    rw [SetWeights.core_eq]
    simp only []
    norm_num [SetWeights.allZeroOf, SetWeights.zeroSumCheck, SetWeights.equalCheck]
  exact h.2 hAZ

/-- Witness for C6 (amended) at the empty weights map with uid map b->5. -/
theorem claim_C6_witness :
    (SetWeights.core [5] [0] 0).allZero = true ∧
    (SetWeights.core [5] [0] 0).scaled.sum = 0 ∧
    (5 : ℕ) ∈ (SetWeights.core [5] [0] 0).uids := by
  have hout : SetWeights.setWeightsVector [] [("b", 5)] 0 =
      some (SetWeights.core [5] [0] 0) := by
    simp [SetWeights.setWeightsVector, alookup]
  have h := claim_C6_all_zero_submission [] [("b", 5)]
    (by intro e he; simp at he) _ hout
  exact ⟨h.1, h.2.1, h.2.2.2 rfl 5 (by norm_num)⟩

/-- Witness for C10 at weights {"a": 1, "b": 1} (two equal positive
weights), uid map a->1, b->2. -/
theorem claim_C10_witness :
    (SetWeights.core [1, 2] [1, 1] 0).allZero = true ∧
    (SetWeights.core [1, 2] [1, 1] 0).scaled.sum = 0 := by
  have hout : SetWeights.setWeightsVector
      [("a", JSNum.num 1), ("b", JSNum.num 1)] [("a", 1), ("b", 2)] 0 =
      some (SetWeights.core [1, 2] [1, 1] 0) := by
    simp [SetWeights.setWeightsVector, alookup, sanitizeWeight]
  have h := claim_C10_equal_weights_zeroed _ _ ?heq _ hout
  case heq =>
    intro e1 he1 e2 he2 q1 q2 h1 h2 hq1 hq2
    have hv1 : q1 = 1 := by
      rcases List.mem_cons.mp he1 with rfl | he1'
      · injection h1 with hq
        exact hq.symm
      · rcases List.mem_cons.mp he1' with rfl | habs
        · injection h1 with hq
          exact hq.symm
        · simp at habs
    have hv2 : q2 = 1 := by
      rcases List.mem_cons.mp he2 with rfl | he2'
      · injection h2 with hq
        exact hq.symm
      · rcases List.mem_cons.mp he2' with rfl | habs
        · injection h2 with hq
          exact hq.symm
        · simp at habs
    subst hv1
    subst hv2
    norm_num
  exact ⟨h.1, h.2.1⟩

section ALookup

variable {α β : Type} [DecidableEq α]

lemma alookup_map_self (keys : List α) (f : α → β) (a : α) (ha : a ∈ keys) :
    alookup (keys.map (fun k => (k, f k))) a = some (f a) := by
  induction keys with
  | nil => simp at ha
  | cons x t ih =>
      simp only [List.map_cons, alookup]
      by_cases hx : x = a
      · subst hx
        simp
      · rw [if_neg hx]
        rcases List.mem_cons.mp ha with rfl | h
        · exact absurd rfl hx
        · exact ih h

lemma alookup_map_none (keys : List α) (f : α → β) (a : α) (ha : a ∉ keys) :
    alookup (keys.map (fun k => (k, f k))) a = none := by
  induction keys with
  | nil => rfl
  | cons x t ih =>
      simp only [List.map_cons, alookup]
      have hx : ¬ x = a := fun h => ha (h ▸ List.mem_cons_self x t)
      rw [if_neg hx]
      exact ih (fun h => ha (List.mem_cons_of_mem x h))

lemma alookup_isSome_iff_mem (m : List (α × β)) (a : α) :
    (∃ v, alookup m a = some v) ↔ a ∈ m.map Prod.fst := by
  induction m with
  | nil => simp [alookup]
  | cons e t ih =>
      obtain ⟨k, v⟩ := e
      simp only [alookup, List.map_cons, List.mem_cons]
      by_cases h : k = a
      · subst h
        simp
      · rw [if_neg h]
        rw [ih]
        constructor
        · exact fun hm => Or.inr hm
        · rintro (rfl | hm)
          · exact absurd rfl h
          · exact hm

end ALookup

namespace Ema

lemma mem_unionKeys (prev curr : List (String × JSNum)) (a : String) :
    a ∈ unionKeys prev curr ↔
      a ∈ prev.map Prod.fst ∨ a ∈ curr.map Prod.fst := by
  unfold unionKeys
  rw [mem_foldl_insKey]
  simp

lemma updateEma_eq (alpha : ℚ) (prev curr : List (String × JSNum)) :
    updateEma alpha prev curr = (unionKeys prev curr).map (fun k =>
      (k, JSNum.num (alpha * safeVal (agetD curr k (JSNum.num 0)) +
        (1 - alpha) * safeVal (agetD prev k (JSNum.num 0))))) := rfl

end Ema

/-- Claim C5.  The EMA store is left unchanged by any run in which no raw
miner weight is positive and finite; in a run with some positive finite raw
weight (and the EMA feature enabled), the new store holds, for exactly the
keys in the union of the previous store's and the eligible map's domains,
the value alpha * eligible.get(k, 0) + (1 - alpha) * prev.get(k, 0) (with
non-finite stored inputs read as 0), and no other key. -/
theorem claim_C5_ema_update (alpha : ℚ) (useEma : Bool)
    (prevStore raw : List (String × JSNum)) :
    (Ema.hasPositiveEmission raw = false →
      Ema.emaStoreAfterRun useEma alpha prevStore raw = prevStore) ∧
    (Ema.hasPositiveEmission raw = true → useEma = true →
      ∀ k : String,
        ((∃ v, alookup prevStore k = some v) ∨
            (∃ v, alookup (Ema.emaEligible raw) k = some v) →
          alookup (Ema.emaStoreAfterRun useEma alpha prevStore raw) k =
            some (JSNum.num
              (alpha * Ema.safeVal (agetD (Ema.emaEligible raw) k (JSNum.num 0)) +
               (1 - alpha) * Ema.safeVal (agetD prevStore k (JSNum.num 0))))) ∧
        (¬ ((∃ v, alookup prevStore k = some v) ∨
            (∃ v, alookup (Ema.emaEligible raw) k = some v)) →
          alookup (Ema.emaStoreAfterRun useEma alpha prevStore raw) k = none)) := by
  constructor
  · intro h
    simp [Ema.emaStoreAfterRun, h]
  · intro hpos huse k
    have hrw : Ema.emaStoreAfterRun useEma alpha prevStore raw =
        Ema.updateEma alpha prevStore (Ema.emaEligible raw) := by
      simp [Ema.emaStoreAfterRun, hpos, huse]
    constructor
    · intro hk
      have hmem : k ∈ Ema.unionKeys prevStore (Ema.emaEligible raw) := by
        rw [Ema.mem_unionKeys]
        rcases hk with h | h
        · exact Or.inl ((alookup_isSome_iff_mem _ _).mp h)
        · exact Or.inr ((alookup_isSome_iff_mem _ _).mp h)
      rw [hrw, Ema.updateEma_eq]
      exact alookup_map_self _ _ k hmem
    · intro hk
      have hmem : k ∉ Ema.unionKeys prevStore (Ema.emaEligible raw) := by
        rw [Ema.mem_unionKeys]
        rintro (h | h)
        · exact hk (Or.inl ((alookup_isSome_iff_mem _ _).mpr h))
        · exact hk (Or.inr ((alookup_isSome_iff_mem _ _).mpr h))
      rw [hrw, Ema.updateEma_eq]
      exact alookup_map_none _ _ k hmem

/-- Witness for C5: previous store {h1: 2}; a run with raw weights
{h1: 1, h2: NaN} updates h1 to 0.3*1 + 0.7*2 and drops h2, while a run with
raw weights {h2: NaN} (no positive finite weight) leaves the store as is. -/
theorem claim_C5_witness :
    Ema.emaStoreAfterRun true (3/10) [("h1", JSNum.num 2)] [("h2", JSNum.nan)] =
      [("h1", JSNum.num 2)] ∧
    alookup (Ema.emaStoreAfterRun true (3/10) [("h1", JSNum.num 2)]
        [("h1", JSNum.num 1), ("h2", JSNum.nan)]) "h1" =
      some (JSNum.num (17/10)) ∧
    alookup (Ema.emaStoreAfterRun true (3/10) [("h1", JSNum.num 2)]
        [("h1", JSNum.num 1), ("h2", JSNum.nan)]) "h2" = none := by
  have hfalse : Ema.hasPositiveEmission [("h2", JSNum.nan)] = false := rfl
  have hpos : Ema.hasPositiveEmission
      [("h1", JSNum.num 1), ("h2", JSNum.nan)] = true := by
    simp [Ema.hasPositiveEmission, Ema.isPosFinite]
  have he : Ema.emaEligible [("h1", JSNum.num 1), ("h2", JSNum.nan)] =
      [("h1", JSNum.num 1)] := by
    norm_num [Ema.emaEligible, List.filter_cons, Ema.isPosFinite]
  refine ⟨(claim_C5_ema_update (3/10) true _ _).1 hfalse, ?_, ?_⟩
  · have h := ((claim_C5_ema_update (3/10) true [("h1", JSNum.num 2)]
        [("h1", JSNum.num 1), ("h2", JSNum.nan)]).2 hpos rfl "h1").1
      (Or.inl ⟨JSNum.num 2, by simp [alookup]⟩)
    rw [h, he]
    simp only [agetD, alookup, if_pos rfl, Option.getD_some, Ema.safeVal]
    norm_num
  · refine ((claim_C5_ema_update (3/10) true [("h1", JSNum.num 2)]
        [("h1", JSNum.num 1), ("h2", JSNum.nan)]).2 hpos rfl "h2").2 ?_
    rintro (⟨v, hv⟩ | ⟨v, hv⟩)
    · simp [alookup] at hv
    · rw [he] at hv
      simp [alookup] at hv

namespace PoolWeights

lemma poolWeights_eq (P : List NFTPosition) (T : List (String × PoolTickData))
    (A : List (ℤ × ℚ)) (F : List ℤ) (r0 r106 : ℚ) :
    (calculatePoolWeightsWithReservedPools P T A F r0 r106).poolWeights =
      pw3Of P T A F r0 r106 := rfl

end PoolWeights

section ASetLemmas

variable {α : Type} [DecidableEq α]

lemma alookup_mem {β : Type} (m : List (α × β)) (a : α) (v : β)
    (h : alookup m a = some v) : (a, v) ∈ m := by
  induction m with
  | nil => simp [alookup] at h
  | cons e t ih =>
      obtain ⟨k, w⟩ := e
      simp only [alookup] at h
      by_cases hk : k = a
      · rw [if_pos hk] at h
        subst hk
        cases h
        exact List.mem_cons_self _ _
      · rw [if_neg hk] at h
        exact List.mem_cons_of_mem _ (ih h)

lemma alookup_eq_none_of_notmem {β : Type} (m : List (α × β)) (a : α)
    (h : a ∉ m.map Prod.fst) : alookup m a = none := by
  cases hl : alookup m a with
  | none => rfl
  | some v =>
      exact absurd ((alookup_isSome_iff_mem m a).mp ⟨v, hl⟩) h

lemma agetD_eq_zero_of_notmem (m : List (α × ℚ)) (a : α)
    (h : a ∉ m.map Prod.fst) : agetD m a 0 = 0 := by
  rw [agetD, alookup_eq_none_of_notmem m a h]
  rfl

omit [DecidableEq α] in
lemma sumValues_cons (e : α × ℚ) (t : List (α × ℚ)) :
    sumValues (e :: t) = e.2 + sumValues t := by
  simp [sumValues]

lemma alookup_aset_self (m : List (α × ℚ)) (k : α) (v : ℚ) :
    alookup (aset m k v) k = some v := by
  induction m with
  | nil => simp [aset, alookup]
  | cons e t ih =>
      obtain ⟨k0, v0⟩ := e
      simp only [aset]
      by_cases hk : k0 = k
      · rw [if_pos hk]
        simp [alookup]
      · rw [if_neg hk]
        simp only [alookup, if_neg hk]
        exact ih

lemma alookup_aset_ne (m : List (α × ℚ)) (k k' : α) (v : ℚ) (h : k' ≠ k) :
    alookup (aset m k v) k' = alookup m k' := by
  have hkk : ¬ k = k' := Ne.symm h
  induction m with
  | nil => simp only [aset, alookup, if_neg hkk]
  | cons e t ih =>
      obtain ⟨k0, v0⟩ := e
      simp only [aset]
      by_cases hk : k0 = k
      · rw [if_pos hk]
        subst hk
        simp only [alookup, if_neg hkk]
      · rw [if_neg hk]
        by_cases hk0 : k0 = k'
        · simp only [alookup, if_pos hk0]
        · simp only [alookup, if_neg hk0]
          exact ih

lemma agetD_aset_self (m : List (α × ℚ)) (k : α) (v : ℚ) :
    agetD (aset m k v) k 0 = v := by
  rw [agetD, alookup_aset_self]
  rfl

lemma agetD_aset_ne (m : List (α × ℚ)) (k k' : α) (v : ℚ) (h : k' ≠ k) :
    agetD (aset m k v) k' 0 = agetD m k' 0 := by
  rw [agetD, alookup_aset_ne _ _ _ _ h, agetD]

lemma sumValues_aset (m : List (α × ℚ)) (k : α) (v : ℚ) :
    sumValues (aset m k v) = sumValues m - agetD m k 0 + v := by
  induction m with
  | nil => simp [aset, sumValues, agetD, alookup]
  | cons e t ih =>
      obtain ⟨k0, v0⟩ := e
      simp only [aset]
      by_cases hk : k0 = k
      · subst hk
        rw [if_pos rfl, sumValues_cons, sumValues_cons]
        simp only [agetD, alookup, if_true, Option.getD_some]
        ring
      · rw [if_neg hk, sumValues_cons, sumValues_cons, ih]
        simp only [agetD, alookup, if_neg hk]
        ring

lemma keys_aset_notmem (m : List (α × ℚ)) (k : α) (v : ℚ)
    (h : k ∉ m.map Prod.fst) :
    (aset m k v).map Prod.fst = m.map Prod.fst ++ [k] := by
  induction m with
  | nil => simp [aset]
  | cons e t ih =>
      obtain ⟨k0, v0⟩ := e
      simp only [List.map_cons, List.mem_cons] at h
      push_neg at h
      simp only [aset]
      rw [if_neg (Ne.symm h.1)]
      simp only [List.map_cons, List.cons_append]
      rw [ih h.2]

lemma sumValues_aadd (m : List (α × ℚ)) (k : α) (v : ℚ) :
    sumValues (aadd m k v) = sumValues m + v := by
  rw [aadd, sumValues_aset]
  ring

lemma agetD_aadd_self (m : List (α × ℚ)) (k : α) (v : ℚ) :
    agetD (aadd m k v) k 0 = agetD m k 0 + v := by
  rw [aadd, agetD_aset_self]

lemma agetD_aadd_ne (m : List (α × ℚ)) (k k' : α) (v : ℚ) (h : k' ≠ k) :
    agetD (aadd m k v) k' 0 = agetD m k' 0 := by
  rw [aadd, agetD_aset_ne _ _ _ _ h]

end ASetLemmas

section FoldMapLemmas

variable {α : Type} [DecidableEq α]

lemma sum_foldl_aadd (l : List α) (v : ℚ) (m0 : List (α × ℚ)) :
    sumValues (l.foldl (fun m p => aadd m p v) m0) =
      sumValues m0 + l.length * v := by
  induction l generalizing m0 with
  | nil => simp
  | cons x t ih =>
      simp only [List.foldl_cons, List.length_cons, ih, sumValues_aadd]
      push_cast
      ring

lemma getD_foldl_aadd_notmem (l : List α) (v : ℚ) (m0 : List (α × ℚ))
    (p : α) (hp : p ∉ l) :
    agetD (l.foldl (fun m q => aadd m q v) m0) p 0 = agetD m0 p 0 := by
  induction l generalizing m0 with
  | nil => rfl
  | cons x t ih =>
      simp only [List.mem_cons] at hp
      push_neg at hp
      simp only [List.foldl_cons]
      rw [ih _ hp.2, agetD_aadd_ne _ _ _ _ hp.1]

lemma getD_foldl_aadd_nodup (l : List α) (v : ℚ) (m0 : List (α × ℚ))
    (p : α) (hn : l.Nodup) (hp : p ∈ l) :
    agetD (l.foldl (fun m q => aadd m q v) m0) p 0 = agetD m0 p 0 + v := by
  induction l generalizing m0 with
  | nil => simp at hp
  | cons x t ih =>
      simp only [List.foldl_cons]
      rcases List.mem_cons.mp hp with rfl | hpt
      · rw [getD_foldl_aadd_notmem _ _ _ _ (List.nodup_cons.mp hn).1,
          agetD_aadd_self]
      · have hpx : p ≠ x := fun hh =>
          (List.nodup_cons.mp hn).1 (hh ▸ hpt)
        rw [ih _ (List.nodup_cons.mp hn).2 hpt, agetD_aadd_ne _ _ _ _ hpx]

lemma getD_foldl_aset_notmem (l : List α) (v : ℚ) (m0 : List (α × ℚ))
    (p : α) (hp : p ∉ l) :
    agetD (l.foldl (fun m q => aset m q v) m0) p 0 = agetD m0 p 0 := by
  induction l generalizing m0 with
  | nil => rfl
  | cons x t ih =>
      simp only [List.mem_cons] at hp
      push_neg at hp
      simp only [List.foldl_cons]
      rw [ih _ hp.2, agetD_aset_ne _ _ _ _ hp.1]

lemma getD_foldl_aset_mem (l : List α) (v : ℚ) (m0 : List (α × ℚ))
    (p : α) (hp : p ∈ l) :
    agetD (l.foldl (fun m q => aset m q v) m0) p 0 = v := by
  induction l generalizing m0 with
  | nil => simp at hp
  | cons x t ih =>
      simp only [List.foldl_cons]
      by_cases hpt : p ∈ t
      · exact ih _ hpt
      · rcases List.mem_cons.mp hp with rfl | hmem
        · rw [getD_foldl_aset_notmem _ _ _ _ hpt, agetD_aset_self]
        · exact absurd hmem hpt

lemma keys_foldl_aset (l : List α) (v : ℚ) (m0 : List (α × ℚ)) (p : α)
    (hp : p ∉ l) (hm : p ∉ m0.map Prod.fst) :
    p ∉ (l.foldl (fun m q => aset m q v) m0).map Prod.fst := by
  induction l generalizing m0 with
  | nil => exact hm
  | cons x t ih =>
      simp only [List.mem_cons] at hp
      push_neg at hp
      simp only [List.foldl_cons]
      refine ih _ hp.2 ?_
      by_cases hx : x ∈ m0.map Prod.fst
      · intro hmem
        exact hm (by
          have : (aset m0 x v).map Prod.fst = m0.map Prod.fst := by
            clear hm hmem ih
            induction m0 with
            | nil => simp at hx
            | cons e t0 ih0 =>
                obtain ⟨k0, v0⟩ := e
                simp only [List.map_cons, List.mem_cons] at hx
                simp only [aset]
                by_cases hk : k0 = x
                · rw [if_pos hk]
                  simp [hk]
                · rw [if_neg hk]
                  rcases hx with hx | hx
                  · exact absurd hx.symm hk
                  · simp [ih0 hx]
          rwa [this] at hmem)
      · rw [keys_aset_notmem _ _ _ hx]
        simp only [List.mem_append, List.mem_singleton]
        rintro (hmem | rfl)
        · exact hm hmem
        · exact hp.1 rfl

lemma sum_foldl_aset_fresh (l : List α) (v : ℚ) (m0 : List (α × ℚ))
    (hn : l.Nodup) (hf : ∀ p ∈ l, p ∉ m0.map Prod.fst) :
    sumValues (l.foldl (fun m p => aset m p v) m0) =
      sumValues m0 + l.length * v := by
  induction l generalizing m0 with
  | nil => simp
  | cons x t ih =>
      simp only [List.foldl_cons, List.length_cons]
      have hf2 : ∀ p ∈ t, p ∉ ((aset m0 x v).map Prod.fst) := by
        intro p hpt
        rw [keys_aset_notmem _ _ _ (hf x (List.mem_cons_self x t))]
        simp only [List.mem_append, List.mem_singleton]
        rintro (hmem | rfl)
        · exact hf p (List.mem_cons_of_mem x hpt) hmem
        · exact (List.nodup_cons.mp hn).1 hpt
      rw [ih _ (List.nodup_cons.mp hn).2 hf2, sumValues_aset,
        agetD_eq_zero_of_notmem _ _ (hf x (List.mem_cons_self x t))]
      push_cast
      ring

end FoldMapLemmas

namespace PoolWeights

lemma addPool_inv (T : List (String × PoolTickData)) (m : List (ℤ × List String))
    (hm : ∀ e ∈ m, e.2.Nodup ∧ e.2 ≠ [] ∧
      ∀ p ∈ e.2, ∃ td, alookup T p = some td ∧ td.subnetId = e.1)
    (s : ℤ) (q : String)
    (hq : ∃ td, alookup T q = some td ∧ td.subnetId = s) :
    ∀ e ∈ addPool m s q, e.2.Nodup ∧ e.2 ≠ [] ∧
      ∀ p ∈ e.2, ∃ td, alookup T p = some td ∧ td.subnetId = e.1 := by
  induction m with
  | nil =>
      intro e he
      simp only [addPool] at he
      rw [List.mem_singleton] at he
      subst he
      refine ⟨by simp, by simp, ?_⟩
      intro p hp
      rw [List.mem_singleton] at hp
      subst hp
      exact hq
  | cons e0 t ih =>
      obtain ⟨s0, ps⟩ := e0
      intro e he
      simp only [addPool] at he
      by_cases hs : s0 = s
      · rw [if_pos hs] at he
        subst hs
        by_cases hmem : q ∈ ps
        · rw [if_pos hmem] at he
          exact hm e he
        · rw [if_neg hmem] at he
          rcases List.mem_cons.mp he with rfl | het
          · have h0 := hm (s0, ps) (List.mem_cons_self _ _)
            refine ⟨?_, by simp, ?_⟩
            · simp only [List.nodup_append, List.nodup_singleton]
              exact ⟨h0.1, trivial, by simpa using hmem⟩
            · intro p hp
              rcases List.mem_append.mp hp with hp | hp
              · exact h0.2.2 p hp
              · rw [List.mem_singleton] at hp
                subst hp
                exact hq
          · exact hm _ (List.mem_cons_of_mem _ het)
      · rw [if_neg hs] at he
        rcases List.mem_cons.mp he with rfl | het
        · exact hm _ (List.mem_cons_self _ _)
        · exact ih (fun e' he' => hm e' (List.mem_cons_of_mem _ he')) e het

lemma buildPools_inv (P : List NFTPosition) (T : List (String × PoolTickData)) :
    ∀ e ∈ buildPoolsBySubnet P T, e.2.Nodup ∧ e.2 ≠ [] ∧
      ∀ p ∈ e.2, ∃ td, alookup T p = some td ∧ td.subnetId = e.1 := by
  have haux : ∀ (Q : List NFTPosition) (m0 : List (ℤ × List String)),
      (∀ e ∈ m0, e.2.Nodup ∧ e.2 ≠ [] ∧
        ∀ p ∈ e.2, ∃ td, alookup T p = some td ∧ td.subnetId = e.1) →
      ∀ e ∈ Q.foldl (fun m pos =>
          match alookup T pos.pool with
          | some td => addPool m td.subnetId pos.pool
          | none => m) m0,
        e.2.Nodup ∧ e.2 ≠ [] ∧
          ∀ p ∈ e.2, ∃ td, alookup T p = some td ∧ td.subnetId = e.1 := by
    intro Q
    induction Q with
    | nil => exact fun m0 hm0 => hm0
    | cons pos t ih =>
        intro m0 hm0
        simp only [List.foldl_cons]
        cases hl : alookup T pos.pool with
        | none =>
            apply ih
            exact hm0
        | some td =>
            apply ih
            exact addPool_inv T m0 hm0 _ _ ⟨td, hl, rfl⟩
  exact haux P [] (by simp)

lemma bucket_subnet_unique (P : List NFTPosition)
    (T : List (String × PoolTickData)) {s s' : ℤ} {ps ps' : List String}
    (h : (s, ps) ∈ buildPoolsBySubnet P T)
    (h' : (s', ps') ∈ buildPoolsBySubnet P T) {p : String}
    (hp : p ∈ ps) (hp' : p ∈ ps') : s = s' := by
  obtain ⟨td, htd, hs⟩ := (buildPools_inv P T _ h).2.2 p hp
  obtain ⟨td', htd', hs'⟩ := (buildPools_inv P T _ h').2.2 p hp'
  rw [htd] at htd'
  cases htd'
  exact hs.symm.trans hs'

lemma mem_bucket_entry (P : List NFTPosition)
    (T : List (String × PoolTickData)) (s : ℤ)
    (hne : agetD (buildPoolsBySubnet P T) s [] ≠ []) :
    (s, agetD (buildPoolsBySubnet P T) s []) ∈ buildPoolsBySubnet P T := by
  rw [agetD] at hne ⊢
  cases hl : alookup (buildPoolsBySubnet P T) s with
  | none =>
      rw [hl] at hne
      simp at hne
  | some ps =>
      exact alookup_mem _ _ _ hl

lemma bucket_disjoint (P : List NFTPosition)
    (T : List (String × PoolTickData)) {s s' : ℤ} (hne : s ≠ s') {p : String}
    (hp : p ∈ agetD (buildPoolsBySubnet P T) s [])
    (hp' : p ∈ agetD (buildPoolsBySubnet P T) s' []) : False := by
  have h1 : agetD (buildPoolsBySubnet P T) s [] ≠ [] := by
    intro h
    rw [h] at hp
    simp at hp
  have h2 : agetD (buildPoolsBySubnet P T) s' [] ≠ [] := by
    intro h
    rw [h] at hp'
    simp at hp'
  exact hne (bucket_subnet_unique P T (mem_bucket_entry P T s h1)
    (mem_bucket_entry P T s' h2) hp hp')

lemma bucket_ne_nil_of_mem_keys (P : List NFTPosition)
    (T : List (String × PoolTickData)) (id : ℤ)
    (h : id ∈ (buildPoolsBySubnet P T).map Prod.fst) :
    agetD (buildPoolsBySubnet P T) id [] ≠ [] := by
  obtain ⟨v, hv⟩ := (alookup_isSome_iff_mem _ _).mpr h
  have hmem := alookup_mem _ _ _ hv
  have hne := (buildPools_inv P T _ hmem).2.1
  rw [agetD, hv]
  simpa using hne

lemma mem_idsOf (P : List NFTPosition) (T : List (String × PoolTickData))
    (id : ℤ) (h : id ∈ idsOf P T) :
    id ∈ (buildPoolsBySubnet P T).map Prod.fst ∧ id ≠ 0 ∧ id ≠ 106 := by
  rw [idsOf] at h
  rw [List.mem_filter] at h
  refine ⟨h.1, ?_⟩
  have := h.2
  simpa using this

end PoolWeights

section NestedFold

lemma sum_foldl_nested (ids : List ℤ) (pools : ℤ → List String) (w : ℤ → ℚ)
    (m0 : List (String × ℚ)) :
    sumValues (ids.foldl (fun m id =>
        (pools id).foldl (fun m' p => aadd m' p (w id)) m) m0) =
      sumValues m0 + (ids.map (fun id => ((pools id).length : ℚ) * w id)).sum := by
  induction ids generalizing m0 with
  | nil => simp
  | cons x t ih =>
      simp only [List.foldl_cons, List.map_cons, List.sum_cons, ih, sum_foldl_aadd]
      ring

lemma getD_foldl_nested_notmem (ids : List ℤ) (pools : ℤ → List String)
    (w : ℤ → ℚ) (m0 : List (String × ℚ)) (p : String)
    (hp : ∀ id ∈ ids, p ∉ pools id) :
    agetD (ids.foldl (fun m id =>
        (pools id).foldl (fun m' p => aadd m' p (w id)) m) m0) p 0 =
      agetD m0 p 0 := by
  induction ids generalizing m0 with
  | nil => rfl
  | cons x t ih =>
      simp only [List.foldl_cons]
      rw [ih _ (fun id hid => hp id (List.mem_cons_of_mem x hid)),
        getD_foldl_aadd_notmem _ _ _ _ (hp x (List.mem_cons_self x t))]

end NestedFold

namespace PoolWeights

lemma bucket_nodup (P : List NFTPosition) (T : List (String × PoolTickData))
    (s : ℤ) (hne : agetD (buildPoolsBySubnet P T) s [] ≠ []) :
    (agetD (buildPoolsBySubnet P T) s []).Nodup :=
  (buildPools_inv P T _ (mem_bucket_entry P T s hne)).1

lemma zp_nodup (P : List NFTPosition) (T : List (String × PoolTickData))
    (h : zpOf P T ≠ []) : (zpOf P T).Nodup :=
  bucket_nodup P T 0 h

lemma sp_nodup (P : List NFTPosition) (T : List (String × PoolTickData))
    (h : spOf P T ≠ []) : (spOf P T).Nodup :=
  bucket_nodup P T 106 h

lemma zp_sp_disjoint (P : List NFTPosition) (T : List (String × PoolTickData))
    {p : String} (hp : p ∈ zpOf P T) : p ∉ spOf P T := by
  intro hp'
  exact bucket_disjoint P T (by norm_num : (0 : ℤ) ≠ 106) hp hp'

lemma zeroShare_nonneg (P : List NFTPosition)
    (T : List (String × PoolTickData)) (r0 : ℚ) :
    0 ≤ zeroShareOf P T r0 := by
  rw [zeroShareOf]
  split
  · exact le_max_left _ _
  · exact le_refl 0

lemma zeroShare_le_one (P : List NFTPosition)
    (T : List (String × PoolTickData)) (r0 : ℚ) :
    zeroShareOf P T r0 ≤ 1 := by
  rw [zeroShareOf]
  split
  · exact max_le (by norm_num) (min_le_left _ _)
  · norm_num

lemma s106_nonneg (P : List NFTPosition) (T : List (String × PoolTickData))
    (r0 r106 : ℚ) : 0 ≤ s106Of P T r0 r106 := by
  rw [s106Of]
  split
  · exact le_max_left _ _
  · exact le_refl 0

lemma shares_add_le_one (P : List NFTPosition)
    (T : List (String × PoolTickData)) (r0 r106 : ℚ) :
    zeroShareOf P T r0 + s106Of P T r0 r106 ≤ 1 := by
  have hz1 := zeroShare_le_one P T r0
  have hs : s106Of P T r0 r106 ≤ 1 - zeroShareOf P T r0 := by
    rw [s106Of]
    split
    · exact max_le (by linarith) (min_le_left _ _)
    · linarith
  linarith

lemma rem_eq (P : List NFTPosition) (T : List (String × PoolTickData))
    (r0 r106 : ℚ) :
    remOf P T r0 r106 = 1 - zeroShareOf P T r0 - s106Of P T r0 r106 := by
  rw [remOf]
  exact max_eq_right (by linarith [shares_add_le_one P T r0 r106])

lemma zeroShare_eq_zero (P : List NFTPosition)
    (T : List (String × PoolTickData)) (r0 : ℚ) (h : zpOf P T = []) :
    zeroShareOf P T r0 = 0 := by
  rw [zeroShareOf, if_neg (by simpa using h)]

lemma s106_eq_zero (P : List NFTPosition) (T : List (String × PoolTickData))
    (r0 r106 : ℚ) (h : spOf P T = []) : s106Of P T r0 r106 = 0 := by
  rw [s106Of, if_neg (by simpa using h)]

lemma length_ne_zero_q {l : List String} (h : l ≠ []) :
    ((l.length : ℚ)) ≠ 0 := by
  exact_mod_cast fun hh => h (List.length_eq_zero.mp (by exact_mod_cast hh))

lemma sum_pw1 (P : List NFTPosition) (T : List (String × PoolTickData))
    (r0 : ℚ) : sumValues (pw1Of P T r0) = zeroShareOf P T r0 := by
  rw [pw1Of]
  split
  · next h =>
      rw [sum_foldl_aset_fresh _ _ _ (zp_nodup P T h) (by simp)]
      rw [show sumValues ([] : List (String × ℚ)) = 0 from rfl, zero_add,
        mul_comm, div_mul_cancel₀ _ (length_ne_zero_q h)]
  · next h =>
      rw [zeroShareOf, if_neg h]
      rfl

lemma getD_pw1_mem (P : List NFTPosition) (T : List (String × PoolTickData))
    (r0 : ℚ) {p : String} (hp : p ∈ zpOf P T) :
    agetD (pw1Of P T r0) p 0 = zeroShareOf P T r0 / (zpOf P T).length := by
  have hne : zpOf P T ≠ [] := fun h => by
    rw [h] at hp
    simp at hp
  rw [pw1Of, if_pos hne]
  exact getD_foldl_aset_mem _ _ _ _ hp

lemma getD_pw1_notmem (P : List NFTPosition) (T : List (String × PoolTickData))
    (r0 : ℚ) {p : String} (hp : p ∉ zpOf P T) :
    agetD (pw1Of P T r0) p 0 = 0 := by
  rw [pw1Of]
  split
  · rw [getD_foldl_aset_notmem _ _ _ _ hp]
    rfl
  · rfl

lemma s106_zero_of_branch_false (P : List NFTPosition)
    (T : List (String × PoolTickData)) (r0 r106 : ℚ)
    (h : ¬(spOf P T ≠ [] ∧ 0 < s106Of P T r0 r106)) :
    s106Of P T r0 r106 = 0 := by
  by_cases hsp : spOf P T = []
  · exact s106_eq_zero P T r0 r106 hsp
  · push_neg at h
    exact le_antisymm (h hsp) (s106_nonneg P T r0 r106)

lemma sum_pw2 (P : List NFTPosition) (T : List (String × PoolTickData))
    (r0 r106 : ℚ) :
    sumValues (pw2Of P T r0 r106) =
      zeroShareOf P T r0 + s106Of P T r0 r106 := by
  rw [pw2Of]
  split
  · next h =>
      rw [sum_foldl_aadd, sum_pw1, if_pos h.1, mul_comm,
        div_mul_cancel₀ _ (length_ne_zero_q h.1)]
  · next h =>
      rw [sum_pw1, s106_zero_of_branch_false P T r0 r106 h, add_zero]

lemma getD_pw2_zp (P : List NFTPosition) (T : List (String × PoolTickData))
    (r0 r106 : ℚ) {p : String} (hp : p ∈ zpOf P T) :
    agetD (pw2Of P T r0 r106) p 0 = agetD (pw1Of P T r0) p 0 := by
  rw [pw2Of]
  split
  · exact getD_foldl_aadd_notmem _ _ _ _ (zp_sp_disjoint P T hp)
  · rfl

lemma getD_pw2_sp (P : List NFTPosition) (T : List (String × PoolTickData))
    (r0 r106 : ℚ) {p : String} (hp : p ∈ spOf P T) :
    agetD (pw2Of P T r0 r106) p 0 =
      s106Of P T r0 r106 / (spOf P T).length := by
  have hne : spOf P T ≠ [] := fun h => by
    rw [h] at hp
    simp at hp
  have hnotzp : p ∉ zpOf P T := fun hzp => zp_sp_disjoint P T hzp hp
  rw [pw2Of]
  split
  · next h =>
      rw [getD_foldl_aadd_nodup _ _ _ _ (sp_nodup P T hne) hp,
        getD_pw1_notmem P T r0 hnotzp, zero_add]
  · next h =>
      rw [getD_pw1_notmem P T r0 hnotzp,
        s106_zero_of_branch_false P T r0 r106 h, zero_div]

end PoolWeights

namespace PoolWeights

lemma getD_pw3_zp (P : List NFTPosition) (T : List (String × PoolTickData))
    (A : List (ℤ × ℚ)) (F : List ℤ) (r0 r106 : ℚ) {p : String}
    (hp : p ∈ zpOf P T) :
    agetD (pw3Of P T A F r0 r106) p 0 = agetD (pw2Of P T r0 r106) p 0 := by
  have hdis : ∀ id ∈ idsOf P T, p ∉ agetD (bpsOf P T) id [] := by
    intro id hid hmem
    exact bucket_disjoint P T (Ne.symm (mem_idsOf P T id hid).2.1) hp hmem
  rw [pw3Of]
  split
  · rfl
  · split
    · exact getD_foldl_nested_notmem (idsOf P T)
        (fun id => agetD (bpsOf P T) id [])
        (fun id => if agetD (bpsOf P T) id [] ≠ [] then
          agetD (swOf A F) id 0 / totalAlphaOf P T A F * remOf P T r0 r106 /
            (agetD (bpsOf P T) id []).length
        else 0) _ p hdis
    · refine getD_foldl_aadd_notmem _ _ _ _ ?_
      intro hmem
      rw [anzOf, List.mem_flatMap] at hmem
      obtain ⟨id, hid, hpm⟩ := hmem
      exact hdis id hid hpm

lemma getD_pw3_sp (P : List NFTPosition) (T : List (String × PoolTickData))
    (A : List (ℤ × ℚ)) (F : List ℤ) (r0 r106 : ℚ) {p : String}
    (hp : p ∈ spOf P T) :
    agetD (pw3Of P T A F r0 r106) p 0 = agetD (pw2Of P T r0 r106) p 0 := by
  have hdis : ∀ id ∈ idsOf P T, p ∉ agetD (bpsOf P T) id [] := by
    intro id hid hmem
    exact bucket_disjoint P T (Ne.symm (mem_idsOf P T id hid).2.2) hp hmem
  rw [pw3Of]
  split
  · rfl
  · split
    · exact getD_foldl_nested_notmem (idsOf P T)
        (fun id => agetD (bpsOf P T) id [])
        (fun id => if agetD (bpsOf P T) id [] ≠ [] then
          agetD (swOf A F) id 0 / totalAlphaOf P T A F * remOf P T r0 r106 /
            (agetD (bpsOf P T) id []).length
        else 0) _ p hdis
    · refine getD_foldl_aadd_notmem _ _ _ _ ?_
      intro hmem
      rw [anzOf, List.mem_flatMap] at hmem
      obtain ⟨id, hid, hpm⟩ := hmem
      exact hdis id hid hpm

lemma sum_pw3_le (P : List NFTPosition) (T : List (String × PoolTickData))
    (A : List (ℤ × ℚ)) (F : List ℤ) (r0 r106 : ℚ) :
    sumValues (pw3Of P T A F r0 r106) ≤ 1 := by
  have hb := shares_add_le_one P T r0 r106
  rw [pw3Of]
  split
  · rw [sum_pw2]
    exact hb
  · split
    · next h2 =>
        have hs := sum_foldl_nested (idsOf P T)
          (fun id => agetD (bpsOf P T) id [])
          (fun id => if agetD (bpsOf P T) id [] ≠ [] then
            agetD (swOf A F) id 0 / totalAlphaOf P T A F * remOf P T r0 r106 /
              (agetD (bpsOf P T) id []).length
          else 0) (pw2Of P T r0 r106)
        rw [hs, sum_pw2]
        have hmap : ((idsOf P T).map (fun id =>
            ((agetD (bpsOf P T) id []).length : ℚ) *
            (if agetD (bpsOf P T) id [] ≠ [] then
              agetD (swOf A F) id 0 / totalAlphaOf P T A F * remOf P T r0 r106 /
                (agetD (bpsOf P T) id []).length
            else 0))) =
            (idsOf P T).map (fun id =>
              agetD (swOf A F) id 0 *
                (remOf P T r0 r106 / totalAlphaOf P T A F)) := by
          refine List.map_congr_left ?_
          intro id hid
          have hne : agetD (bpsOf P T) id [] ≠ [] :=
            bucket_ne_nil_of_mem_keys P T id (mem_idsOf P T id hid).1
          rw [if_pos hne, mul_comm, div_mul_cancel₀ _ (length_ne_zero_q hne)]
          ring
        rw [hmap, List.sum_map_mul_right]
        have htot : ((idsOf P T).map (fun id => agetD (swOf A F) id 0)).sum =
            totalAlphaOf P T A F := rfl
        rw [htot, mul_comm, div_mul_cancel₀ _ (ne_of_gt h2), rem_eq]
        linarith
    · next h2 =>
        rw [sum_foldl_aadd, sum_pw2]
        by_cases hanz : anzOf P T = []
        · rw [hanz]
          simp only [List.length_nil, Nat.cast_zero, zero_mul, add_zero]
          exact hb
        · rw [if_pos hanz, mul_comm,
            div_mul_cancel₀ _ (length_ne_zero_q hanz), rem_eq]
          linarith

end PoolWeights

/-- Claim C4.  For any input, the pool-weights map built by
calculatePoolWeightsWithReservedPools sums to at most 1 (exactly, hence
within 1e-9); every subnet-0 pool carries exactly the clamped reserved share
zeroShareOf divided equally among the subnet-0 pools, so those pools
collectively receive exactly that share, and the share is 0 when no subnet-0
pool exists; symmetrically for the subnet-106 pools with the share clamped
to the remainder left by the subnet-0 reservation. -/
theorem claim_C4_reserved_shares (P : List NFTPosition)
    (T : List (String × PoolTickData)) (A : List (ℤ × ℚ)) (F : List ℤ)
    (r0 r106 : ℚ) :
    sumValues (PoolWeights.calculatePoolWeightsWithReservedPools
      P T A F r0 r106).poolWeights ≤ 1 ∧
    (∀ p ∈ PoolWeights.zpOf P T,
      agetD (PoolWeights.calculatePoolWeightsWithReservedPools
          P T A F r0 r106).poolWeights p 0 =
        PoolWeights.zeroShareOf P T r0 / (PoolWeights.zpOf P T).length) ∧
    (∀ p ∈ PoolWeights.spOf P T,
      agetD (PoolWeights.calculatePoolWeightsWithReservedPools
          P T A F r0 r106).poolWeights p 0 =
        PoolWeights.s106Of P T r0 r106 / (PoolWeights.spOf P T).length) ∧
    (PoolWeights.zpOf P T ≠ [] →
      ((PoolWeights.zpOf P T).map (fun p =>
        agetD (PoolWeights.calculatePoolWeightsWithReservedPools
          P T A F r0 r106).poolWeights p 0)).sum =
        PoolWeights.zeroShareOf P T r0) ∧
    (PoolWeights.spOf P T ≠ [] →
      ((PoolWeights.spOf P T).map (fun p =>
        agetD (PoolWeights.calculatePoolWeightsWithReservedPools
          P T A F r0 r106).poolWeights p 0)).sum =
        PoolWeights.s106Of P T r0 r106) ∧
    (PoolWeights.zpOf P T = [] → PoolWeights.zeroShareOf P T r0 = 0) ∧
    (PoolWeights.spOf P T = [] → PoolWeights.s106Of P T r0 r106 = 0) := by
  have hE0 : ∀ p ∈ PoolWeights.zpOf P T,
      agetD (PoolWeights.pw3Of P T A F r0 r106) p 0 =
        PoolWeights.zeroShareOf P T r0 / (PoolWeights.zpOf P T).length := by
    intro p hp
    rw [PoolWeights.getD_pw3_zp P T A F r0 r106 hp,
      PoolWeights.getD_pw2_zp P T r0 r106 hp,
      PoolWeights.getD_pw1_mem P T r0 hp]
  have hE106 : ∀ p ∈ PoolWeights.spOf P T,
      agetD (PoolWeights.pw3Of P T A F r0 r106) p 0 =
        PoolWeights.s106Of P T r0 r106 / (PoolWeights.spOf P T).length := by
    intro p hp
    rw [PoolWeights.getD_pw3_sp P T A F r0 r106 hp,
      PoolWeights.getD_pw2_sp P T r0 r106 hp]
  refine ⟨?_, ?_, ?_, ?_, ?_, ?_, ?_⟩
  · rw [PoolWeights.poolWeights_eq]
    exact PoolWeights.sum_pw3_le P T A F r0 r106
  · rw [PoolWeights.poolWeights_eq]
    exact hE0
  · rw [PoolWeights.poolWeights_eq]
    exact hE106
  · intro hne
    rw [PoolWeights.poolWeights_eq]
    have hmap : (PoolWeights.zpOf P T).map (fun p =>
        agetD (PoolWeights.pw3Of P T A F r0 r106) p 0) =
        (PoolWeights.zpOf P T).map (fun _ =>
          PoolWeights.zeroShareOf P T r0 / (PoolWeights.zpOf P T).length) :=
      List.map_congr_left (fun p hp => hE0 p hp)
    rw [hmap, List.map_const', List.sum_replicate, nsmul_eq_mul, mul_comm,
      div_mul_cancel₀ _ (PoolWeights.length_ne_zero_q hne)]
  · intro hne
    rw [PoolWeights.poolWeights_eq]
    have hmap : (PoolWeights.spOf P T).map (fun p =>
        agetD (PoolWeights.pw3Of P T A F r0 r106) p 0) =
        (PoolWeights.spOf P T).map (fun _ =>
          PoolWeights.s106Of P T r0 r106 / (PoolWeights.spOf P T).length) :=
      List.map_congr_left (fun p hp => hE106 p hp)
    rw [hmap, List.map_const', List.sum_replicate, nsmul_eq_mul, mul_comm,
      div_mul_cancel₀ _ (PoolWeights.length_ne_zero_q hne)]
  · exact PoolWeights.zeroShare_eq_zero P T r0
  · exact PoolWeights.s106_eq_zero P T r0 r106

/-- Witness for C4 at one position in pool "z" whose tick data assigns
subnet 0, reserved shares 0.9 and 0.1: pool "z" is a subnet-0 pool and its
weight is the full clamped subnet-0 share, and with no subnet-106 pool the
subnet-106 share is 0. -/
theorem claim_C4_witness :
    "z" ∈ PoolWeights.zpOf [⟨"m", "ethereum", "z", "1", 0, 10, 5⟩]
      [("z", ⟨3, 0⟩)] ∧
    agetD (PoolWeights.calculatePoolWeightsWithReservedPools
        [⟨"m", "ethereum", "z", "1", 0, 10, 5⟩] [("z", ⟨3, 0⟩)] [] []
        (9/10) (1/10)).poolWeights "z" 0 =
      PoolWeights.zeroShareOf [⟨"m", "ethereum", "z", "1", 0, 10, 5⟩]
          [("z", ⟨3, 0⟩)] (9/10) /
        (PoolWeights.zpOf [⟨"m", "ethereum", "z", "1", 0, 10, 5⟩]
          [("z", ⟨3, 0⟩)]).length ∧
    PoolWeights.spOf [⟨"m", "ethereum", "z", "1", 0, 10, 5⟩]
      [("z", ⟨3, 0⟩)] = [] ∧
    PoolWeights.s106Of [⟨"m", "ethereum", "z", "1", 0, 10, 5⟩]
      [("z", ⟨3, 0⟩)] (9/10) (1/10) = 0 := by
  have hz : PoolWeights.zpOf [⟨"m", "ethereum", "z", "1", 0, 10, 5⟩]
      [("z", ⟨3, 0⟩)] = ["z"] := by
    simp [PoolWeights.zpOf, PoolWeights.bpsOf, PoolWeights.buildPoolsBySubnet,
      PoolWeights.addPool, agetD, alookup]
  have hs : PoolWeights.spOf [⟨"m", "ethereum", "z", "1", 0, 10, 5⟩]
      [("z", ⟨3, 0⟩)] = [] := by
    simp [PoolWeights.spOf, PoolWeights.bpsOf, PoolWeights.buildPoolsBySubnet,
      PoolWeights.addPool, agetD, alookup]
  have h := claim_C4_reserved_shares [⟨"m", "ethereum", "z", "1", 0, 10, 5⟩]
    [("z", ⟨3, 0⟩)] [] [] (9/10) (1/10)
  have hmem : "z" ∈ PoolWeights.zpOf [⟨"m", "ethereum", "z", "1", 0, 10, 5⟩]
      [("z", ⟨3, 0⟩)] := by
    rw [hz]
    exact List.mem_singleton.mpr rfl
  exact ⟨hmem, h.2.1 "z" hmem, hs, h.2.2.2.2.2.2 hs⟩
